import Mathlib

/- Verification of the Jumpy3 game engine (jumpy3_utils.py): the board
model, the flip transform, move generation, the terminal tests and the
two static evaluation functions, and of the minimax and alpha-beta
search routines. -/

namespace Jumpy3

/-- A board is a list of cells (characters); well-formed boards have
length 16 over the alphabet W, w, B, b, x. -/
abbrev Board := List Char

/-- Cell access `board[i]`; an out-of-range read gives the junk
character so that it never looks like a piece or an empty cell. -/
def cell (board : Board) (i : ℕ) : Char := board.getD i '?'

/-- The piece mapping of `flip`: W↔B, w↔b, x↦x.  The Python dict lookup
raises on any other character; on well-formed boards this never happens,
and we leave such characters unchanged. -/
def flipChar (c : Char) : Char :=
  if c = 'W' then 'B'
  else if c = 'w' then 'b'
  else if c = 'B' then 'W'
  else if c = 'b' then 'w'
  else c

/-- `flip`: reverse the board and swap the two sides. -/
def flip (board : Board) : Board := board.reverse.map flipChar

/-- First empty cell index in `[start, 16)` (Python `range(i+1, 16)`
scan in `generate_white_moves`). -/
def find_first_empty (board : Board) (start : ℕ) : Option ℕ :=
  (List.range' start (16 - start)).find? (fun idx => decide (cell board idx = 'x'))

/-- Rightmost empty cell index (Python `range(15, -1, -1)` scan). -/
def find_rightmost_empty (board : Board) : Option ℕ :=
  (List.range 16).reverse.find? (fun idx => decide (cell board idx = 'x'))

/-- The capture step: place the jumped piece on the rightmost cell of
`jump_board` that is empty after the jump (if any), then clear the
jumped cell `i+1`. -/
def capture_relocate (jump_board : Board) (i : ℕ) (jumped : Char) : Board :=
  (match find_rightmost_empty jump_board with
   | some k => jump_board.set k jumped
   | none => jump_board).set (i+1) 'x'

/-- The successor board produced for the white piece `piece` sitting at
cell `i` (the body of the `generate_white_moves` loop; the Python
jump board `(board.set j piece).set i 'x'` is written out in place). -/
def white_piece_move (board : Board) (i : ℕ) (piece : Char) : Board :=
  if i = 15 then
    board.set i 'x'
  else if cell board (i+1) = 'x' then
    (board.set (i+1) piece).set i 'x'
  else
    match find_first_empty board (i+1) with
    | none => board.set i 'x'
    | some j =>
      if j - i = 2 then
        if cell board (i+1) = 'W' ∨ cell board (i+1) = 'w' then
          (board.set j piece).set i 'x'
        else
          capture_relocate ((board.set j piece).set i 'x') i (cell board (i+1))
      else
        (board.set j piece).set i 'x'

/-- The `for i, piece in enumerate(board)` loop of
`generate_white_moves`: `l` is the suffix of `board` starting at cell
`i`. -/
def gwAux (board : Board) : ℕ → List Char → List Board
  | _, [] => []
  | i, piece :: rest =>
    if piece = 'W' ∨ piece = 'w' then
      white_piece_move board i piece :: gwAux board (i+1) rest
    else
      gwAux board (i+1) rest

/-- All successor boards after one White move. -/
def generate_white_moves (board : Board) : List Board := gwAux board 0 board

/-- Black moves: flip the board, generate White moves, flip each result
back. -/
def generate_black_moves (board : Board) : List Board :=
  (generate_white_moves (flip board)).map flip

/-- White wins iff the board does not contain the White king 'W'. -/
def white_win (board : Board) : Bool := !board.contains 'W'

/-- Black wins iff the board does not contain the Black king 'B'. -/
def black_win (board : Board) : Bool := !board.contains 'B'

/-- The standard static evaluation (`static_evaluation`). -/
def static_evaluation (board : Board) : ℚ :=
  if white_win board then 100
  else if black_win board then -100
  else
    let i : ℤ := match board.findIdx? (fun c => decide (c = 'W')) with
      | some i => (i : ℤ)
      | none => 16
    let j : ℤ := match board.findIdx? (fun c => decide (c = 'B')) with
      | some j => (j : ℤ)
      | none => -1
    ((i + j - 15 : ℤ) : ℚ)

/-- The improved static evaluation: king positions plus a mobility
bonus.  The Python float arithmetic `0.1 * (...)` is modelled by exact
rational arithmetic. -/
def improved_static_evaluation (board : Board) : ℚ :=
  if white_win board then 100
  else if black_win board then -100
  else
    let i : ℤ := match board.findIdx? (fun c => decide (c = 'W')) with
      | some i => (i : ℤ)
      | none => 16
    let j : ℤ := match board.findIdx? (fun c => decide (c = 'B')) with
      | some j => (j : ℤ)
      | none => -1
    let basic : ℚ := ((i + j - 15 : ℤ) : ℚ)
    let num_white_moves : ℤ := (generate_white_moves board).length
    let num_black_moves : ℤ := (generate_black_moves board).length
    basic + (1 / 10 : ℚ) * ((num_white_moves - num_black_moves : ℤ) : ℚ)

/-- Scores used by the search: rationals extended with the two
infinities `float('-inf')` and `float('inf')`. -/
abbrev Score := WithBot (WithTop ℚ)

/-- A finite score. -/
def finScore (q : ℚ) : Score := ((q : WithTop ℚ) : Score)

/-- Result of a search call: the returned `(best_eval, best_move)` pair
together with the value of the `positions_evaluated` counter after the
call. -/
structure SR where
  score : Score
  move : Option Board
  count : ℕ

/-- The move loop of `minimax`: `step m c` is the recursive call on
successor `m` with counter value `c`; `better s t` is the strict
comparison that lets a new score `s` replace the running best `t`. -/
def mmLoop (step : Board → ℕ → SR) (better : Score → Score → Bool) :
    List Board → Score → Option Board → ℕ → SR
  | [], best, bm, c => ⟨best, bm, c⟩
  | m :: rest, best, bm, c =>
    let r := step m c
    if better r.score best then
      mmLoop step better rest r.score (some m) r.count
    else
      mmLoop step better rest best bm r.count

/-- `minimax(board, depth, is_white_turn, eval_fn, positions_evaluated)`.
The one-element mutable counter list is modelled by passing the counter
in and returning its final value. -/
def minimax (board : Board) (depth : ℕ) (is_white_turn : Bool)
    (eval_fn : Board → ℚ) (positions_evaluated : ℕ) : SR :=
  if h : depth = 0 ∨ white_win board = true ∨ black_win board = true then
    ⟨finScore (eval_fn board), some board, positions_evaluated + 1⟩
  else if is_white_turn then
    mmLoop (fun m c => minimax m (depth - 1) false eval_fn c)
      (fun s t => decide (t < s)) (generate_white_moves board) ⊥ none
      positions_evaluated
  else
    mmLoop (fun m c => minimax m (depth - 1) true eval_fn c)
      (fun s t => decide (s < t)) (generate_black_moves board) ⊤ none
      positions_evaluated
termination_by depth
decreasing_by
  all_goals
    simp only [not_or] at h
    omega

/- continued below -/

/-- The maximizer loop of `alphabeta` at fixed `beta`: `step m a c` is
the recursive call on successor `m` with current alpha `a` and counter
`c`.  The cutoff test `beta <= alpha` runs after alpha is updated. -/
def abLoopMax (step : Board → Score → ℕ → SR) (beta : Score) :
    List Board → Score → Option Board → Score → ℕ → SR
  | [], best, bm, _, c => ⟨best, bm, c⟩
  | m :: rest, best, bm, alpha, c =>
    let r := step m alpha c
    let best' := if best < r.score then r.score else best
    let bm' := if best < r.score then some m else bm
    let alpha' := max alpha best'
    if beta ≤ alpha' then ⟨best', bm', r.count⟩
    else abLoopMax step beta rest best' bm' alpha' r.count

/-- The minimizer loop of `alphabeta` at fixed `alpha`. -/
def abLoopMin (step : Board → Score → ℕ → SR) (alpha : Score) :
    List Board → Score → Option Board → Score → ℕ → SR
  | [], best, bm, _, c => ⟨best, bm, c⟩
  | m :: rest, best, bm, beta, c =>
    let r := step m beta c
    let best' := if r.score < best then r.score else best
    let bm' := if r.score < best then some m else bm
    let beta' := min beta best'
    if beta' ≤ alpha then ⟨best', bm', r.count⟩
    else abLoopMin step alpha rest best' bm' beta' r.count

/-- `alphabeta(board, depth, alpha, beta, is_white_turn, eval_fn,
positions_evaluated)`. -/
def alphabeta (board : Board) (depth : ℕ) (alpha beta : Score)
    (is_white_turn : Bool) (eval_fn : Board → ℚ)
    (positions_evaluated : ℕ) : SR :=
  if h : depth = 0 ∨ white_win board = true ∨ black_win board = true then
    ⟨finScore (eval_fn board), some board, positions_evaluated + 1⟩
  else if is_white_turn then
    abLoopMax (fun m a c => alphabeta m (depth - 1) a beta false eval_fn c)
      beta (generate_white_moves board) ⊥ none alpha positions_evaluated
  else
    abLoopMin (fun m b c => alphabeta m (depth - 1) alpha b true eval_fn c)
      alpha (generate_black_moves board) ⊤ none beta positions_evaluated
termination_by depth
decreasing_by
  all_goals
    simp only [not_or] at h
    omega

/-! ### Basic cell and set lemmas -/

theorem cell_lt_length {b : Board} {i : ℕ} {c : Char} (h : cell b i = c)
    (hc : c ≠ '?') : i < b.length := by
  by_contra hlen
  push_neg at hlen
  rw [cell, List.getD_eq_getElem?_getD, List.getElem?_eq_none hlen] at h
  exact hc h.symm

theorem cell_eq_getElem {b : Board} {i : ℕ} (h : i < b.length) :
    cell b i = b[i] := by
  rw [cell, List.getD_eq_getElem?_getD, List.getElem?_eq_getElem h, Option.getD_some]

theorem cell_set_self {b : Board} {i : ℕ} (a : Char) (h : i < b.length) :
    cell (b.set i a) i = a := by
  rw [cell, List.getD_eq_getElem?_getD, List.getElem?_set]
  simp [h]

theorem cell_set_ne {b : Board} {i j : ℕ} (a : Char) (h : i ≠ j) :
    cell (b.set i a) j = cell b j := by
  rw [cell, cell, List.getD_eq_getElem?_getD, List.getD_eq_getElem?_getD,
    List.getElem?_set]
  simp [h]

/-! ### Flip lemmas -/

theorem flipChar_flipChar (c : Char) : flipChar (flipChar c) = c := by
  by_cases h1 : c = 'W'
  · subst h1; decide
  by_cases h2 : c = 'w'
  · subst h2; decide
  by_cases h3 : c = 'B'
  · subst h3; decide
  by_cases h4 : c = 'b'
  · subst h4; decide
  simp [flipChar, h1, h2, h3, h4]

theorem flipChar_eq_W {c : Char} : flipChar c = 'W' ↔ c = 'B' := by
  constructor
  · intro h
    have := flipChar_flipChar c
    rw [h] at this
    simp [flipChar] at this
    exact this.symm
  · intro h; subst h; decide

theorem flipChar_eq_B {c : Char} : flipChar c = 'B' ↔ c = 'W' := by
  constructor
  · intro h
    have := flipChar_flipChar c
    rw [h] at this
    simp [flipChar] at this
    exact this.symm
  · intro h; subst h; decide

theorem flip_length (b : Board) : (flip b).length = b.length := by
  simp [flip]

theorem flip_flip (b : Board) : flip (flip b) = b := by
  unfold flip
  rw [List.map_reverse flipChar b, List.reverse_reverse, List.map_map]
  exact List.map_id'' (fun c => flipChar_flipChar c) b

theorem mem_flip_W {b : Board} : 'W' ∈ flip b ↔ 'B' ∈ b := by
  simp only [flip, List.mem_map, List.mem_reverse]
  constructor
  · rintro ⟨c, hc, hfc⟩
    rwa [flipChar_eq_W.mp hfc] at hc
  · intro h
    exact ⟨'B', h, by decide⟩

theorem mem_flip_B {b : Board} : 'B' ∈ flip b ↔ 'W' ∈ b := by
  simp only [flip, List.mem_map, List.mem_reverse]
  constructor
  · rintro ⟨c, hc, hfc⟩
    rwa [flipChar_eq_B.mp hfc] at hc
  · intro h
    exact ⟨'W', h, by decide⟩

theorem count_flip_W (b : Board) : (flip b).count 'W' = b.count 'B' := by
  simp only [flip, List.count_eq_countP, List.countP_map, List.countP_reverse]
  refine List.countP_congr (fun c _ => ?_)
  simp only [Function.comp_apply, beq_iff_eq]
  exact flipChar_eq_W

theorem count_flip_B (b : Board) : (flip b).count 'B' = b.count 'W' := by
  simp only [flip, List.count_eq_countP, List.countP_map, List.countP_reverse]
  refine List.countP_congr (fun c _ => ?_)
  simp only [Function.comp_apply, beq_iff_eq]
  exact flipChar_eq_B

/-! ### Win-predicate lemmas -/

theorem white_win_iff {b : Board} : white_win b = true ↔ 'W' ∉ b := by
  simp [white_win]

theorem white_win_eq_false {b : Board} : white_win b = false ↔ 'W' ∈ b := by
  simp [white_win]

theorem black_win_iff {b : Board} : black_win b = true ↔ 'B' ∉ b := by
  simp [black_win]

theorem black_win_eq_false {b : Board} : black_win b = false ↔ 'B' ∈ b := by
  simp [black_win]

/-- C10 support: flip exchanges the win predicates. -/
theorem white_win_flip (b : Board) : white_win (flip b) = black_win b := by
  by_cases h : 'B' ∈ b
  · rw [white_win_eq_false.mpr (mem_flip_W.mpr h), Eq.comm, black_win_eq_false.mpr h]
  · rw [white_win_iff.mpr (fun hm => h (mem_flip_W.mp hm)), Eq.comm,
      black_win_iff.mpr h]

theorem black_win_flip (b : Board) : black_win (flip b) = white_win b := by
  by_cases h : 'W' ∈ b
  · rw [black_win_eq_false.mpr (mem_flip_B.mpr h), Eq.comm, white_win_eq_false.mpr h]
  · rw [black_win_iff.mpr (fun hm => h (mem_flip_B.mp hm)), Eq.comm,
      white_win_iff.mpr h]

/-! ### Move-generation structure lemmas -/

/-- Whether a cell holds a white piece. -/
def isWhitePiece (c : Char) : Bool := decide (c = 'W' ∨ c = 'w')

theorem gwAux_length (board : Board) :
    ∀ (l : List Char) (i : ℕ), (gwAux board i l).length = l.countP isWhitePiece
  | [], _ => rfl
  | piece :: rest, i => by
    rw [gwAux, List.countP_cons]
    by_cases h : piece = 'W' ∨ piece = 'w'
    · simp only [if_pos h, List.length_cons, gwAux_length board rest (i+1),
        isWhitePiece, decide_eq_true h]
      simp
    · simp only [if_neg h, gwAux_length board rest (i+1), isWhitePiece,
        decide_eq_false h]
      simp

theorem generate_white_moves_length (b : Board) :
    (generate_white_moves b).length = b.countP isWhitePiece :=
  gwAux_length b b 0

theorem gwAux_ne_nil {board : Board} {l : List Char} {i : ℕ}
    (h : ∃ c ∈ l, c = 'W' ∨ c = 'w') : gwAux board i l ≠ [] := by
  induction l generalizing i with
  | nil => obtain ⟨c, hc, _⟩ := h; exact absurd hc (List.not_mem_nil c)
  | cons piece rest ih =>
    rw [gwAux]
    by_cases hp : piece = 'W' ∨ piece = 'w'
    · simp [if_pos hp]
    · rw [if_neg hp]
      obtain ⟨c, hc, hcw⟩ := h
      rcases List.mem_cons.mp hc with rfl | hmem
      · exact absurd hcw hp
      · exact ih ⟨c, hmem, hcw⟩

theorem generate_white_moves_ne_nil {b : Board} (h : white_win b = false) :
    generate_white_moves b ≠ [] :=
  gwAux_ne_nil ⟨'W', white_win_eq_false.mp h, Or.inl rfl⟩

theorem generate_black_moves_ne_nil {b : Board} (h : black_win b = false) :
    generate_black_moves b ≠ [] := by
  have hW : 'W' ∈ flip b := mem_flip_W.mpr (black_win_eq_false.mp h)
  have := @gwAux_ne_nil (flip b) (flip b) 0 ⟨'W', hW, Or.inl rfl⟩
  simp only [generate_black_moves, ne_eq, List.map_eq_nil_iff]
  exact this

/-- Membership of the per-piece successor in the generated move list. -/
theorem gwAux_mem {board : Board} :
    ∀ {l : List Char} {k : ℕ} (i : ℕ) (hk : k < l.length),
    isWhitePiece (l.get ⟨k, hk⟩) = true →
    white_piece_move board (i + k) (l.get ⟨k, hk⟩) ∈ gwAux board i l := by
  intro l
  induction l with
  | nil => intro k i hk; simp at hk
  | cons piece rest ih =>
    intro k i hk hwhite
    match k with
    | 0 =>
      simp only [List.get] at hwhite ⊢
      rw [gwAux, if_pos (of_decide_eq_true hwhite)]
      exact List.mem_cons_self _ _
    | k' + 1 =>
      simp only [List.get] at hwhite ⊢
      have hk' : k' < rest.length := by simpa using hk
      have := ih (i + 1) hk' hwhite
      rw [gwAux]
      have harith : i + 1 + k' = i + (k' + 1) := by omega
      rw [harith] at this
      by_cases hp : piece = 'W' ∨ piece = 'w'
      · rw [if_pos hp]
        exact List.mem_cons_of_mem _ this
      · rwa [if_neg hp]

theorem white_piece_move_mem {b : Board} {i : ℕ} (hi : i < b.length)
    (hw : cell b i = 'W' ∨ cell b i = 'w') :
    white_piece_move b i (cell b i) ∈ generate_white_moves b := by
  have hcell : cell b i = b.get ⟨i, hi⟩ := by
    rw [cell_eq_getElem hi]; simp
  have hwhite : isWhitePiece (b.get ⟨i, hi⟩) = true := by
    rw [← hcell]; exact decide_eq_true hw
  have := @gwAux_mem b b i 0 hi hwhite
  simpa [generate_white_moves, hcell] using this

/-! ### findIdx? bounds (for the static evaluation) -/

theorem findIdx?_some_bounds {α : Type} {p : α → Bool} :
    ∀ {l : List α} {i j : ℕ}, List.findIdx? p l i = some j →
      i ≤ j ∧ j < i + l.length := by
  intro l
  induction l with
  | nil => intro i j h; simp [List.findIdx?_nil] at h
  | cons x xs ih =>
    intro i j h
    rw [List.findIdx?_cons] at h
    by_cases hp : p x = true
    · rw [if_pos hp] at h
      obtain rfl : i = j := by simpa using h
      simp
    · rw [if_neg hp] at h
      have := ih h
      simp only [List.length_cons]
      omega

theorem findIdx?_isSome_of_mem {b : Board} {c : Char} (h : c ∈ b) :
    (List.findIdx? (fun d => decide (d = c)) b).isSome = true := by
  rw [List.findIdx?_isSome, List.any_eq_true]
  exact ⟨c, h, by simp⟩

/-! ### Claim theorems: flip and move-count claims -/

/-- C5: for every 16-cell board over the alphabet W, w, B, b, x,
`flip (flip b) = b`. -/
theorem C5_flip_involution (b : Board) (hb : b.length = 16)
    (halpha : ∀ c ∈ b, c = 'W' ∨ c = 'w' ∨ c = 'B' ∨ c = 'b' ∨ c = 'x') :
    flip (flip b) = b :=
  flip_flip b

theorem C5_flip_involution_witness :
    ("WwBbxxxxxxxxxxxx".toList.length = 16 ∧
      ∀ c ∈ "WwBbxxxxxxxxxxxx".toList,
        c = 'W' ∨ c = 'w' ∨ c = 'B' ∨ c = 'b' ∨ c = 'x') ∧
    flip (flip ("WwBbxxxxxxxxxxxx".toList)) = "WwBbxxxxxxxxxxxx".toList :=
  ⟨⟨by decide, by decide⟩,
    C5_flip_involution ("WwBbxxxxxxxxxxxx".toList) (by decide) (by decide)⟩

/-- C10: for every 16-cell board over the alphabet, flip exchanges the
two win predicates: `white_win (flip b) = black_win b` and
`black_win (flip b) = white_win b`. -/
theorem C10_win_flip (b : Board) (hb : b.length = 16)
    (halpha : ∀ c ∈ b, c = 'W' ∨ c = 'w' ∨ c = 'B' ∨ c = 'b' ∨ c = 'x') :
    white_win (flip b) = black_win b ∧ black_win (flip b) = white_win b :=
  ⟨white_win_flip b, black_win_flip b⟩

theorem C10_win_flip_witness :
    ("WxxxxxxxxxxxxxxB".toList.length = 16 ∧
      ∀ c ∈ "WxxxxxxxxxxxxxxB".toList,
        c = 'W' ∨ c = 'w' ∨ c = 'B' ∨ c = 'b' ∨ c = 'x') ∧
    (white_win (flip ("WxxxxxxxxxxxxxxB".toList)) =
        black_win ("WxxxxxxxxxxxxxxB".toList) ∧
      black_win (flip ("WxxxxxxxxxxxxxxB".toList)) =
        white_win ("WxxxxxxxxxxxxxxB".toList)) :=
  ⟨⟨by decide, by decide⟩,
    C10_win_flip ("WxxxxxxxxxxxxxxB".toList) (by decide) (by decide)⟩

/-- C4: for every 16-cell board with at least one white piece, the
number of generated White successor boards equals the number of cells
holding 'W' or 'w'. -/
theorem C4_branching_factor (b : Board) (hb : b.length = 16)
    (hw : 0 < b.countP isWhitePiece) :
    (generate_white_moves b).length = b.countP isWhitePiece :=
  generate_white_moves_length b

theorem C4_branching_factor_witness :
    ("WwBxxxxxxxxxxxxx".toList.length = 16 ∧
      0 < "WwBxxxxxxxxxxxxx".toList.countP isWhitePiece) ∧
    (generate_white_moves ("WwBxxxxxxxxxxxxx".toList)).length =
      "WwBxxxxxxxxxxxxx".toList.countP isWhitePiece :=
  ⟨⟨by decide, by decide⟩,
    C4_branching_factor ("WwBxxxxxxxxxxxxx".toList) (by decide) (by decide)⟩

/-! ### Claim C3: static evaluation bounds (corrected) -/

/-- C3 counterexample: on the all-empty board both win predicates hold,
`static_evaluation` returns 100, so `static_evaluation b = -100` is NOT
equivalent to `black_win b`. -/
theorem C3_counterexample :
    black_win ("xxxxxxxxxxxxxxxx".toList) = true ∧
    static_evaluation ("xxxxxxxxxxxxxxxx".toList) = 100 ∧
    ¬(static_evaluation ("xxxxxxxxxxxxxxxx".toList) = -100) := by
  refine ⟨by decide, by decide, ?_⟩
  intro h
  rw [show static_evaluation ("xxxxxxxxxxxxxxxx".toList) = 100 from by decide] at h
  norm_num at h

/-- C3 (amended): `static_evaluation b = 100` iff `white_win b`;
`static_evaluation b = -100` iff `black_win b` and not `white_win b`
(on a double-win board the white test fires first and yields 100); and
when neither side has won the value lies in `[-15, 15]`. -/
theorem C3_eval_bounds (b : Board) (hb : b.length = 16) :
    (static_evaluation b = 100 ↔ white_win b = true) ∧
    (static_evaluation b = -100 ↔ (black_win b = true ∧ white_win b = false)) ∧
    (white_win b = false → black_win b = false →
      -15 ≤ static_evaluation b ∧ static_evaluation b ≤ 15) := by
  by_cases hw : white_win b = true
  · rw [static_evaluation, if_pos hw]
    refine ⟨by simp [hw], ?_, ?_⟩
    · constructor
      · intro h; norm_num at h
      · rintro ⟨-, hfalse⟩; rw [hw] at hfalse; cases hfalse
    · intro hfalse; rw [hw] at hfalse; cases hfalse
  · have hw' : white_win b = false := by
      cases h : white_win b
      · rfl
      · exact absurd h hw
    by_cases hbk : black_win b = true
    · rw [static_evaluation, if_neg hw, if_pos hbk]
      refine ⟨?_, by simp [hbk, hw'], ?_⟩
      · constructor
        · intro h; norm_num at h
        · intro h; exact absurd h hw
      · intro _ hfalse; rw [hbk] at hfalse; cases hfalse
    · have hbk' : black_win b = false := by
        cases h : black_win b
        · rfl
        · exact absurd h hbk
      have hWmem : 'W' ∈ b := white_win_eq_false.mp hw'
      have hBmem : 'B' ∈ b := black_win_eq_false.mp hbk'
      obtain ⟨i, hi⟩ := Option.isSome_iff_exists.mp (findIdx?_isSome_of_mem hWmem)
      obtain ⟨j, hj⟩ := Option.isSome_iff_exists.mp (findIdx?_isSome_of_mem hBmem)
      have hib : i < 16 := by
        have := findIdx?_some_bounds hi
        omega
      have hjb : j < 16 := by
        have := findIdx?_some_bounds hj
        omega
      have heval : static_evaluation b = (((i : ℤ) + (j : ℤ) - 15 : ℤ) : ℚ) := by
        rw [static_evaluation, if_neg hw, if_neg hbk]
        simp only [hi, hj]
      rw [heval]
      have hle : (i : ℤ) + (j : ℤ) - 15 ≤ 15 := by omega
      have hge : (-15 : ℤ) ≤ (i : ℤ) + (j : ℤ) - 15 := by omega
      refine ⟨?_, ?_, ?_⟩
      · constructor
        · intro h
          have h' : (i : ℤ) + (j : ℤ) - 15 = 100 := by exact_mod_cast h
          omega
        · intro h; rw [h] at hw; exact absurd rfl hw
      · constructor
        · intro h
          have h' : (i : ℤ) + (j : ℤ) - 15 = -100 := by exact_mod_cast h
          omega
        · rintro ⟨h, -⟩; rw [h] at hbk; exact absurd rfl hbk
      · intro _ _
        constructor
        · exact_mod_cast hge
        · exact_mod_cast hle

theorem C3_eval_bounds_witness :
    ("WxxxxxxxxxxxxxxB".toList.length = 16) ∧
    ((static_evaluation ("WxxxxxxxxxxxxxxB".toList) = 100 ↔
        white_win ("WxxxxxxxxxxxxxxB".toList) = true) ∧
      (static_evaluation ("WxxxxxxxxxxxxxxB".toList) = -100 ↔
        (black_win ("WxxxxxxxxxxxxxxB".toList) = true ∧
          white_win ("WxxxxxxxxxxxxxxB".toList) = false)) ∧
      (white_win ("WxxxxxxxxxxxxxxB".toList) = false →
        black_win ("WxxxxxxxxxxxxxxB".toList) = false →
        -15 ≤ static_evaluation ("WxxxxxxxxxxxxxxB".toList) ∧
          static_evaluation ("WxxxxxxxxxxxxxxB".toList) ≤ 15)) :=
  ⟨by decide, C3_eval_bounds ("WxxxxxxxxxxxxxxB".toList) (by decide)⟩

/-! ### Claim C2: capture displacement (corrected) -/

theorem find_first_empty_step2 {b : Board} {i : ℕ} (hi : i + 2 ≤ 15)
    (h1 : cell b (i+1) ≠ 'x') (h2 : cell b (i+2) = 'x') :
    find_first_empty b (i+1) = some (i+2) := by
  have hn : 16 - (i+1) = (13 - i) + 1 + 1 := by omega
  rw [find_first_empty, hn, List.range'_succ, List.range'_succ]
  rw [List.find?_cons_of_neg _ (by simpa using h1)]
  rw [List.find?_cons_of_pos _ (by simpa using h2)]

theorem find_rightmost_empty_some {b : Board} {k : ℕ}
    (h : find_rightmost_empty b = some k) : cell b k = 'x' ∧ k < 16 := by
  constructor
  · have := List.find?_some h
    simpa using this
  · have := List.mem_of_find?_eq_some h
    rw [List.mem_reverse, List.mem_range] at this
    exact this

theorem find_rightmost_empty_exists {b : Board} {idx : ℕ}
    (hx : cell b idx = 'x') (hidx : idx < 16) :
    ∃ k, find_rightmost_empty b = some k := by
  cases hfind : find_rightmost_empty b with
  | some k => exact ⟨k, rfl⟩
  | none =>
    exfalso
    rw [find_rightmost_empty, List.find?_eq_none] at hfind
    exact hfind idx (by rw [List.mem_reverse, List.mem_range]; exact hidx)
      (by simpa using hx)

/-- C2 counterexample: from board `wwwwwwwwwwwwwWBx`, the white king at
cell 13 jumps to the first empty cell 15 (`15 - 13 = 2`) over the black
king at cell 14, yet in the unique successor produced for that piece
cell 13 is NOT empty: the rightmost cell that is empty after the jump is
cell 13 itself, so the captured 'B' lands on the origin cell. -/
theorem C2_counterexample :
    cell ("wwwwwwwwwwwwwWBx".toList) 13 = 'W' ∧
    cell ("wwwwwwwwwwwwwWBx".toList) 14 = 'B' ∧
    find_first_empty ("wwwwwwwwwwwwwWBx".toList) 14 = some 15 ∧
    white_piece_move ("wwwwwwwwwwwwwWBx".toList) 13 'W' ∈
      generate_white_moves ("wwwwwwwwwwwwwWBx".toList) ∧
    cell (white_piece_move ("wwwwwwwwwwwwwWBx".toList) 13 'W') 13 ≠ 'x' := by
  decide

/-- C2 (amended): when a white piece at cell `i` jumps to the first
empty cell `j = i+2` over a black piece at `i+1`, the successor keeps
the moved piece at `j`, clears the jumped cell `i+1`, and relocates the
jumped black piece (rather than removing it) to the rightmost cell `k`
that is empty after the jump is applied; cell `i` is empty in the
successor unless `k = i`, in which case cell `i` holds the relocated
black piece. -/
theorem C2_capture_displacement (b : Board) (i : ℕ) (hb : b.length = 16)
    (hi : i + 2 ≤ 15)
    (hpw : cell b i = 'W' ∨ cell b i = 'w')
    (hpb : cell b (i+1) = 'B' ∨ cell b (i+1) = 'b')
    (hx : cell b (i+2) = 'x') :
    find_first_empty b (i+1) = some (i+2) ∧
    ∃ k, find_rightmost_empty ((b.set (i+2) (cell b i)).set i 'x') = some k ∧
      white_piece_move b i (cell b i) ∈ generate_white_moves b ∧
      cell (white_piece_move b i (cell b i)) (i+2) = cell b i ∧
      cell (white_piece_move b i (cell b i)) (i+1) = 'x' ∧
      cell (white_piece_move b i (cell b i)) k = cell b (i+1) ∧
      (k ≠ i → cell (white_piece_move b i (cell b i)) i = 'x') ∧
      (k = i → cell (white_piece_move b i (cell b i)) i = cell b (i+1)) := by
  have hne15 : ¬ i = 15 := by omega
  have hxne : ¬ cell b (i+1) = 'x' := by
    rcases hpb with h | h <;> simp [h]
  have hpne : cell b i ≠ '?' := by
    rcases hpw with h | h <;> simp [h]
  have hilen : i < b.length := cell_lt_length rfl hpne
  have hff : find_first_empty b (i+1) = some (i+2) :=
    find_first_empty_step2 hi hxne hx
  have hjblen : ((b.set (i+2) (cell b i)).set i 'x').length = 16 := by
    rw [List.length_set, List.length_set, hb]
  have hjbi : cell ((b.set (i+2) (cell b i)).set i 'x') i = 'x' :=
    cell_set_self 'x' (by rw [List.length_set]; omega)
  obtain ⟨k, hk⟩ := find_rightmost_empty_exists hjbi (by omega)
  have hkx : cell ((b.set (i+2) (cell b i)).set i 'x') k = 'x' :=
    (find_rightmost_empty_some hk).1
  have hk16 : k < 16 := (find_rightmost_empty_some hk).2
  have hjb_i1 : cell ((b.set (i+2) (cell b i)).set i 'x') (i+1) = cell b (i+1) := by
    rw [cell_set_ne _ (by omega), cell_set_ne _ (by omega)]
  have hjb_i2 : cell ((b.set (i+2) (cell b i)).set i 'x') (i+2) = cell b i := by
    rw [cell_set_ne _ (by omega), cell_set_self _ (by omega)]
  have hki1 : k ≠ i + 1 := by
    intro h; rw [h, hjb_i1] at hkx; exact hxne hkx
  have hki2 : k ≠ i + 2 := by
    intro h; rw [h, hjb_i2] at hkx
    rcases hpw with hp | hp <;> rw [hp] at hkx <;> exact absurd hkx (by decide)
  have hnw : ¬ (cell b (i+1) = 'W' ∨ cell b (i+1) = 'w') := by
    rcases hpb with h | h <;> simp [h]
  have hmove : white_piece_move b i (cell b i) =
      ((((b.set (i+2) (cell b i)).set i 'x').set k (cell b (i+1))).set (i+1) 'x') := by
    rw [white_piece_move, if_neg hne15, if_neg hxne]
    split
    case h_1 heq => rw [hff] at heq; cases heq
    case h_2 j heq =>
      rw [hff] at heq
      obtain rfl : i + 2 = j := Option.some.inj heq
      rw [if_pos (by omega : i + 2 - i = 2), if_neg hnw, capture_relocate, hk]
  refine ⟨hff, k, hk, ?_, ?_, ?_, ?_, ?_, ?_⟩
  · exact white_piece_move_mem hilen hpw
  · rw [hmove, cell_set_ne _ (by omega), cell_set_ne _ hki2, hjb_i2]
  · exact hmove ▸ cell_set_self 'x' (by simp only [List.length_set]; omega)
  · rw [hmove, cell_set_ne _ (fun h => hki1 h.symm),
      cell_set_self _ (by simp only [List.length_set]; omega)]
  · intro hki
    rw [hmove, cell_set_ne _ (by omega), cell_set_ne _ hki, hjbi]
  · intro hki
    subst hki
    rw [hmove, cell_set_ne _ (by omega),
      cell_set_self _ (by simp only [List.length_set]; omega)]

/-- The concrete board of the C2 scenario. -/
def wb0 : Board := "WBxxxxxxxxxxxxxx".toList

theorem C2_capture_displacement_witness :
    (wb0.length = 16 ∧ 0 + 2 ≤ 15 ∧
      (cell wb0 0 = 'W' ∨ cell wb0 0 = 'w') ∧
      (cell wb0 (0+1) = 'B' ∨ cell wb0 (0+1) = 'b') ∧
      cell wb0 (0+2) = 'x') ∧
    generate_white_moves wb0 = ["xxWxxxxxxxxxxxxB".toList] ∧
    (find_first_empty wb0 (0+1) = some (0+2) ∧
      ∃ k, find_rightmost_empty ((wb0.set (0+2) (cell wb0 0)).set 0 'x') = some k ∧
        white_piece_move wb0 0 (cell wb0 0) ∈ generate_white_moves wb0 ∧
        cell (white_piece_move wb0 0 (cell wb0 0)) (0+2) = cell wb0 0 ∧
        cell (white_piece_move wb0 0 (cell wb0 0)) (0+1) = 'x' ∧
        cell (white_piece_move wb0 0 (cell wb0 0)) k = cell wb0 (0+1) ∧
        (k ≠ 0 → cell (white_piece_move wb0 0 (cell wb0 0)) 0 = 'x') ∧
        (k = 0 → cell (white_piece_move wb0 0 (cell wb0 0)) 0 = cell wb0 (0+1))) :=
  ⟨⟨by decide, by decide, by decide, by decide, by decide⟩, by decide,
    C2_capture_displacement wb0 0 (by decide) (by decide) (by decide) (by decide)
      (by decide)⟩

/-! ### Claim C7: well-formedness preservation -/

theorem count_set_cell {b : Board} {i : ℕ} (h : i < b.length) (a ch : Char) :
    (b.set i a).count ch + (if cell b i = ch then 1 else 0) =
      b.count ch + (if a = ch then 1 else 0) := by
  have hcc : cell b i = b[i] := cell_eq_getElem h
  rw [List.count_set a ch b i h, hcc]
  by_cases hbi : b[i] = ch
  · have hmem : ch ∈ b := hbi ▸ List.getElem_mem h
    have hpos : 0 < b.count ch := List.count_pos_iff.mpr hmem
    by_cases ha : a = ch <;> simp [hbi, ha] <;> omega
  · by_cases ha : a = ch <;> simp [hbi, ha]

theorem count_move_from_to {b : Board} {i j : ℕ} {ch : Char} (hch : ch ≠ 'x')
    (hi : i < b.length) (hj : j < b.length) (hij : i ≠ j) (hjx : cell b j = 'x') :
    ((b.set j (cell b i)).set i 'x').count ch = b.count ch := by
  have hxch : ¬('x' = ch) := fun h => hch h.symm
  have h1 := count_set_cell hj (cell b i) ch
  rw [hjx] at h1
  rw [if_neg hxch] at h1
  have hi' : i < (b.set j (cell b i)).length := by rw [List.length_set]; exact hi
  have h2 := count_set_cell hi' 'x' ch
  rw [cell_set_ne _ (Ne.symm hij)] at h2
  rw [if_neg hxch] at h2
  by_cases hc : cell b i = ch
  · rw [if_pos hc] at h1 h2; omega
  · rw [if_neg hc] at h1 h2; omega

theorem count_remove {b : Board} {i : ℕ} {ch : Char} (hch : ch ≠ 'x') :
    (b.set i 'x').count ch ≤ b.count ch := by
  have hxch : ¬('x' = ch) := fun h => hch h.symm
  by_cases h : i < b.length
  · have := count_set_cell h 'x' ch
    rw [if_neg hxch] at this
    omega
  · rw [List.set_eq_of_length_le (by omega)]

theorem white_piece_move_count_le {b : Board} {i : ℕ} {piece ch : Char}
    (hch : ch ≠ 'x') (hpiece : cell b i = piece)
    (hw : piece = 'W' ∨ piece = 'w') :
    (white_piece_move b i piece).count ch ≤ b.count ch := by
  have hxch : ¬('x' = ch) := fun h => hch h.symm
  have hpne : cell b i ≠ '?' := by
    rw [hpiece]; rcases hw with h | h <;> simp [h]
  have hilen : i < b.length := cell_lt_length rfl hpne
  rw [white_piece_move]
  split
  · exact count_remove hch
  next h15 =>
  split
  · next hslide =>
    have hlen1 : i + 1 < b.length :=
      cell_lt_length hslide (by decide)
    rw [← hpiece]
    exact le_of_eq (count_move_from_to hch hilen hlen1 (by omega) hslide)
  next hnoslide =>
  split
  · exact count_remove hch
  next j hfj =>
  have hjx : cell b j = 'x' := by
    have := List.find?_some hfj
    simpa using this
  have hjlen : j < b.length := cell_lt_length hjx (by decide)
  have hjge : i + 1 ≤ j := by
    have := List.mem_of_find?_eq_some hfj
    rw [List.mem_range'_1] at this
    omega
  have hjump : ((b.set j piece).set i 'x').count ch = b.count ch := by
    rw [← hpiece]
    exact count_move_from_to hch hilen hjlen (by omega) hjx
  split
  · next hj2 =>
    split
    · exact le_of_eq hjump
    next hnotwhite =>
    have hjeq : j = i + 2 := by omega
    have hi1len : i + 1 < b.length := by omega
    have hjumped : cell ((b.set j piece).set i 'x') (i+1) = cell b (i+1) := by
      rw [cell_set_ne _ (by omega : i ≠ i + 1), cell_set_ne _ (by omega : j ≠ i + 1)]
    have hjumpedx : cell b (i+1) ≠ 'x' := hnoslide
    rw [capture_relocate]
    split
    · next k hfk =>
      have hkx : cell ((b.set j piece).set i 'x') k = 'x' :=
        (find_rightmost_empty_some hfk).1
      have hklen : k < ((b.set j piece).set i 'x').length :=
        cell_lt_length hkx (by decide)
      have hki1 : k ≠ i + 1 := by
        intro h; rw [h, hjumped] at hkx; exact hjumpedx hkx
      have h3 := count_set_cell hklen (cell b (i+1)) ch
      rw [hkx] at h3
      rw [if_neg hxch] at h3
      have hi1len' : i + 1 <
          ((((b.set j piece).set i 'x')).set k (cell b (i+1))).length := by
        simp only [List.length_set]; omega
      have h4 := count_set_cell hi1len' 'x' ch
      rw [cell_set_ne _ hki1, hjumped] at h4
      rw [if_neg hxch] at h4
      by_cases hc : cell b (i+1) = ch
      · rw [if_pos hc] at h3 h4; omega
      · rw [if_neg hc] at h3 h4; omega
    · exact le_trans (count_remove hch) (le_of_eq hjump)
  · exact le_of_eq hjump

theorem white_piece_move_length (b : Board) (i : ℕ) (piece : Char) :
    (white_piece_move b i piece).length = b.length := by
  rw [white_piece_move]
  split
  · simp
  · split
    · simp
    · split
      · simp
      · split
        · split
          · simp
          · rw [capture_relocate]
            split <;> simp
        · simp

/-- Inverse characterization of membership in the generated move list. -/
theorem gwAux_mem_inv {board : Board} :
    ∀ {l : List Char} {i : ℕ} {m : Board}, m ∈ gwAux board i l →
      ∃ (k : ℕ) (hk : k < l.length), isWhitePiece (l.get ⟨k, hk⟩) = true ∧
        m = white_piece_move board (i + k) (l.get ⟨k, hk⟩) := by
  intro l
  induction l with
  | nil => intro i m h; simp [gwAux] at h
  | cons piece rest ih =>
    intro i m h
    rw [gwAux] at h
    by_cases hp : piece = 'W' ∨ piece = 'w'
    · rw [if_pos hp] at h
      rcases List.mem_cons.mp h with rfl | hmem
      · exact ⟨0, by simp, by simpa [isWhitePiece] using hp, by simp⟩
      · obtain ⟨k, hk, hwk, hmk⟩ := ih hmem
        refine ⟨k + 1, by simpa using hk, hwk, ?_⟩
        rw [hmk]
        congr 1
        omega
    · rw [if_neg hp] at h
      obtain ⟨k, hk, hwk, hmk⟩ := ih h
      refine ⟨k + 1, by simpa using hk, hwk, ?_⟩
      rw [hmk]
      congr 1
      omega

theorem generate_white_moves_count_le {b m : Board} {ch : Char} (hch : ch ≠ 'x')
    (hm : m ∈ generate_white_moves b) : m.count ch ≤ b.count ch := by
  obtain ⟨k, hk, hwk, hmk⟩ := gwAux_mem_inv hm
  have hcell : cell b k = b.get ⟨k, hk⟩ := by rw [cell_eq_getElem hk]; simp
  rw [hmk]
  have hzero : (0 : ℕ) + k = k := by omega
  rw [hzero]
  exact white_piece_move_count_le hch hcell (by simpa [isWhitePiece] using hwk)

theorem generate_white_moves_length_eq {b m : Board}
    (hm : m ∈ generate_white_moves b) : m.length = b.length := by
  obtain ⟨k, hk, hwk, hmk⟩ := gwAux_mem_inv hm
  rw [hmk, white_piece_move_length]

/-- C7: flip and the move generators preserve board length, and from a
board with at most one 'W' and at most one 'B' they only produce boards
with at most one 'W' and at most one 'B'. -/
theorem C7_invariants (b : Board) (hb : b.length = 16) :
    (flip b).length = 16 ∧
    (∀ m ∈ generate_white_moves b, m.length = 16) ∧
    (∀ m ∈ generate_black_moves b, m.length = 16) ∧
    (b.count 'W' ≤ 1 → b.count 'B' ≤ 1 →
      (∀ m ∈ generate_white_moves b, m.count 'W' ≤ 1 ∧ m.count 'B' ≤ 1) ∧
      (∀ m ∈ generate_black_moves b, m.count 'W' ≤ 1 ∧ m.count 'B' ≤ 1)) := by
  refine ⟨by rw [flip_length, hb], ?_, ?_, ?_⟩
  · intro m hm
    rw [generate_white_moves_length_eq hm, hb]
  · intro m hm
    obtain ⟨m', hm', rfl⟩ := List.mem_map.mp hm
    rw [flip_length, generate_white_moves_length_eq hm', flip_length, hb]
  · intro hW hB
    constructor
    · intro m hm
      exact ⟨le_trans (generate_white_moves_count_le (by decide) hm) hW,
        le_trans (generate_white_moves_count_le (by decide) hm) hB⟩
    · intro m hm
      obtain ⟨m', hm', rfl⟩ := List.mem_map.mp hm
      constructor
      · rw [count_flip_W]
        calc m'.count 'B' ≤ (flip b).count 'B' :=
              generate_white_moves_count_le (by decide) hm'
          _ = b.count 'W' := count_flip_B b
          _ ≤ 1 := hW
      · rw [count_flip_B]
        calc m'.count 'W' ≤ (flip b).count 'W' :=
              generate_white_moves_count_le (by decide) hm'
          _ = b.count 'B' := count_flip_W b
          _ ≤ 1 := hB

theorem C7_invariants_witness :
    (wb0.length = 16) ∧
    ((flip wb0).length = 16 ∧
      (∀ m ∈ generate_white_moves wb0, m.length = 16) ∧
      (∀ m ∈ generate_black_moves wb0, m.length = 16) ∧
      (wb0.count 'W' ≤ 1 → wb0.count 'B' ≤ 1 →
        (∀ m ∈ generate_white_moves wb0, m.count 'W' ≤ 1 ∧ m.count 'B' ≤ 1) ∧
        (∀ m ∈ generate_black_moves wb0, m.count 'W' ≤ 1 ∧ m.count 'B' ≤ 1))) :=
  ⟨by decide, C7_invariants wb0 (by decide)⟩

/-! ### Score and fold lemmas for the search routines -/

theorem finScore_ne_bot (q : ℚ) : finScore q ≠ (⊥ : Score) := by
  simp [finScore]

theorem finScore_ne_top (q : ℚ) : finScore q ≠ (⊤ : Score) := by
  have : ((⊤ : WithTop ℚ) : Score) = (⊤ : Score) := rfl
  rw [finScore, ← this]
  simp

theorem score_bot_lt_top : (⊥ : Score) < (⊤ : Score) :=
  WithBot.bot_lt_coe _

/-- Running maximum of child values, as folded by the maximizer loop. -/
def foldMax (v : Board → Score) (l : List Board) (a : Score) : Score :=
  l.foldl (fun acc m => max acc (v m)) a

/-- Running minimum of child values, as folded by the minimizer loop. -/
def foldMin (v : Board → Score) (l : List Board) (a : Score) : Score :=
  l.foldl (fun acc m => min acc (v m)) a

theorem foldMax_nil (v : Board → Score) (a : Score) : foldMax v [] a = a := rfl

theorem foldMax_cons (v : Board → Score) (m : Board) (l : List Board) (a : Score) :
    foldMax v (m :: l) a = foldMax v l (max a (v m)) := rfl

theorem foldMin_nil (v : Board → Score) (a : Score) : foldMin v [] a = a := rfl

theorem foldMin_cons (v : Board → Score) (m : Board) (l : List Board) (a : Score) :
    foldMin v (m :: l) a = foldMin v l (min a (v m)) := rfl

theorem le_foldMax (v : Board → Score) :
    ∀ (l : List Board) (a : Score), a ≤ foldMax v l a := by
  intro l
  induction l with
  | nil => intro a; exact le_refl a
  | cons m rest ih =>
    intro a
    rw [foldMax_cons]
    exact le_trans (le_max_left a (v m)) (ih (max a (v m)))

theorem foldMin_le (v : Board → Score) :
    ∀ (l : List Board) (a : Score), foldMin v l a ≤ a := by
  intro l
  induction l with
  | nil => intro a; exact le_refl a
  | cons m rest ih =>
    intro a
    rw [foldMin_cons]
    exact le_trans (ih (min a (v m))) (min_le_left a (v m))

theorem foldMax_init (v : Board → Score) :
    ∀ (l : List Board) (a : Score), foldMax v l a = max a (foldMax v l ⊥) := by
  intro l
  induction l with
  | nil => intro a; rw [foldMax_nil, foldMax_nil, max_eq_left bot_le]
  | cons m rest ih =>
    intro a
    rw [foldMax_cons, foldMax_cons, ih (max a (v m)), ih (max ⊥ (v m)),
      max_eq_right (bot_le : (⊥ : Score) ≤ v m), max_assoc]

theorem foldMin_init (v : Board → Score) :
    ∀ (l : List Board) (a : Score), foldMin v l a = min a (foldMin v l ⊤) := by
  intro l
  induction l with
  | nil => intro a; rw [foldMin_nil, foldMin_nil, min_eq_left le_top]
  | cons m rest ih =>
    intro a
    rw [foldMin_cons, foldMin_cons, ih (min a (v m)), ih (min ⊤ (v m)),
      min_eq_right (le_top : v m ≤ (⊤ : Score)), min_assoc]

theorem foldMax_cases (v : Board → Score) :
    ∀ (l : List Board) (a : Score), foldMax v l a = a ∨ ∃ m ∈ l, foldMax v l a = v m := by
  intro l
  induction l with
  | nil => intro a; exact Or.inl rfl
  | cons m rest ih =>
    intro a
    rw [foldMax_cons]
    rcases ih (max a (v m)) with h | ⟨m', hm', h⟩
    · rcases max_choice a (v m) with hc | hc
      · exact Or.inl (h.trans hc)
      · exact Or.inr ⟨m, List.mem_cons_self m rest, h.trans hc⟩
    · exact Or.inr ⟨m', List.mem_cons_of_mem m hm', h⟩

theorem foldMin_cases (v : Board → Score) :
    ∀ (l : List Board) (a : Score), foldMin v l a = a ∨ ∃ m ∈ l, foldMin v l a = v m := by
  intro l
  induction l with
  | nil => intro a; exact Or.inl rfl
  | cons m rest ih =>
    intro a
    rw [foldMin_cons]
    rcases ih (min a (v m)) with h | ⟨m', hm', h⟩
    · rcases min_choice a (v m) with hc | hc
      · exact Or.inl (h.trans hc)
      · exact Or.inr ⟨m, List.mem_cons_self m rest, h.trans hc⟩
    · exact Or.inr ⟨m', List.mem_cons_of_mem m hm', h⟩

theorem foldMax_le_of_mem (v : Board → Score) :
    ∀ {l : List Board} {m : Board} (a : Score), m ∈ l → v m ≤ foldMax v l a := by
  intro l
  induction l with
  | nil => intro m a h; cases h
  | cons m' rest ih =>
    intro m a h
    rw [foldMax_cons]
    rcases List.mem_cons.mp h with rfl | hmem
    · exact le_trans (le_max_right a (v m)) (le_foldMax v rest _)
    · exact ih _ hmem

theorem foldMin_le_of_mem (v : Board → Score) :
    ∀ {l : List Board} {m : Board} (a : Score), m ∈ l → foldMin v l a ≤ v m := by
  intro l
  induction l with
  | nil => intro m a h; cases h
  | cons m' rest ih =>
    intro m a h
    rw [foldMin_cons]
    rcases List.mem_cons.mp h with rfl | hmem
    · exact le_trans (foldMin_le v rest _) (min_le_right a (v m))
    · exact ih _ hmem

/-! ### Loop unfolding lemmas -/

theorem mmLoop_nil (step : Board → ℕ → SR) (better : Score → Score → Bool)
    (best : Score) (bm : Option Board) (c : ℕ) :
    mmLoop step better [] best bm c = ⟨best, bm, c⟩ := rfl

theorem mmLoop_cons (step : Board → ℕ → SR) (better : Score → Score → Bool)
    (m : Board) (rest : List Board) (best : Score) (bm : Option Board) (c : ℕ) :
    mmLoop step better (m :: rest) best bm c =
      if better (step m c).score best then
        mmLoop step better rest (step m c).score (some m) (step m c).count
      else
        mmLoop step better rest best bm (step m c).count := rfl

theorem abLoopMax_nil (step : Board → Score → ℕ → SR) (beta : Score)
    (best : Score) (bm : Option Board) (alpha : Score) (c : ℕ) :
    abLoopMax step beta [] best bm alpha c = ⟨best, bm, c⟩ := rfl

theorem abLoopMax_cons (step : Board → Score → ℕ → SR) (beta : Score)
    (m : Board) (rest : List Board) (best : Score) (bm : Option Board)
    (alpha : Score) (c : ℕ) :
    abLoopMax step beta (m :: rest) best bm alpha c =
      if beta ≤ max alpha
          (if best < (step m alpha c).score then (step m alpha c).score else best) then
        ⟨if best < (step m alpha c).score then (step m alpha c).score else best,
          if best < (step m alpha c).score then some m else bm,
          (step m alpha c).count⟩
      else
        abLoopMax step beta rest
          (if best < (step m alpha c).score then (step m alpha c).score else best)
          (if best < (step m alpha c).score then some m else bm)
          (max alpha
            (if best < (step m alpha c).score then (step m alpha c).score else best))
          (step m alpha c).count := rfl

theorem abLoopMin_nil (step : Board → Score → ℕ → SR) (alpha : Score)
    (best : Score) (bm : Option Board) (beta : Score) (c : ℕ) :
    abLoopMin step alpha [] best bm beta c = ⟨best, bm, c⟩ := rfl

theorem abLoopMin_cons (step : Board → Score → ℕ → SR) (alpha : Score)
    (m : Board) (rest : List Board) (best : Score) (bm : Option Board)
    (beta : Score) (c : ℕ) :
    abLoopMin step alpha (m :: rest) best bm beta c =
      if min beta
          (if (step m beta c).score < best then (step m beta c).score else best) ≤ alpha then
        ⟨if (step m beta c).score < best then (step m beta c).score else best,
          if (step m beta c).score < best then some m else bm,
          (step m beta c).count⟩
      else
        abLoopMin step alpha rest
          (if (step m beta c).score < best then (step m beta c).score else best)
          (if (step m beta c).score < best then some m else bm)
          (min beta
            (if (step m beta c).score < best then (step m beta c).score else best))
          (step m beta c).count := rfl

/-! ### Unfolding lemmas for minimax and alphabeta -/

theorem minimax_leaf {board : Board} {depth : ℕ} {w : Bool} {ef : Board → ℚ} {c : ℕ}
    (h : depth = 0 ∨ white_win board = true ∨ black_win board = true) :
    minimax board depth w ef c = ⟨finScore (ef board), some board, c + 1⟩ := by
  rw [minimax.eq_def, dif_pos h]

theorem minimax_white {board : Board} {n : ℕ} {ef : Board → ℚ} {c : ℕ}
    (hw : white_win board = false) (hbk : black_win board = false) :
    minimax board (n+1) true ef c =
      mmLoop (fun m c' => minimax m n false ef c') (fun s t => decide (t < s))
        (generate_white_moves board) ⊥ none c := by
  rw [minimax.eq_def, dif_neg (by simp [hw, hbk])]
  rfl

theorem minimax_black {board : Board} {n : ℕ} {ef : Board → ℚ} {c : ℕ}
    (hw : white_win board = false) (hbk : black_win board = false) :
    minimax board (n+1) false ef c =
      mmLoop (fun m c' => minimax m n true ef c') (fun s t => decide (s < t))
        (generate_black_moves board) ⊤ none c := by
  rw [minimax.eq_def, dif_neg (by simp [hw, hbk])]
  rfl

theorem alphabeta_leaf {board : Board} {depth : ℕ} {alpha beta : Score} {w : Bool}
    {ef : Board → ℚ} {c : ℕ}
    (h : depth = 0 ∨ white_win board = true ∨ black_win board = true) :
    alphabeta board depth alpha beta w ef c = ⟨finScore (ef board), some board, c + 1⟩ := by
  rw [alphabeta.eq_def, dif_pos h]

theorem alphabeta_white {board : Board} {n : ℕ} {alpha beta : Score}
    {ef : Board → ℚ} {c : ℕ}
    (hw : white_win board = false) (hbk : black_win board = false) :
    alphabeta board (n+1) alpha beta true ef c =
      abLoopMax (fun m a c' => alphabeta m n a beta false ef c') beta
        (generate_white_moves board) ⊥ none alpha c := by
  rw [alphabeta.eq_def, dif_neg (by simp [hw, hbk])]
  rfl

theorem alphabeta_black {board : Board} {n : ℕ} {alpha beta : Score}
    {ef : Board → ℚ} {c : ℕ}
    (hw : white_win board = false) (hbk : black_win board = false) :
    alphabeta board (n+1) alpha beta false ef c =
      abLoopMin (fun m b c' => alphabeta m n alpha b true ef c') alpha
        (generate_black_moves board) ⊤ none beta c := by
  rw [alphabeta.eq_def, dif_neg (by simp [hw, hbk])]
  rfl

/-! ### Counter-shift lemmas: the counter is threaded additively -/

theorem mmLoop_shift {step : Board → ℕ → SR} {better : Score → Score → Bool}
    (hs : ∀ m c, (step m c).score = (step m 0).score)
    (hcnt : ∀ m c, (step m c).count = c + (step m 0).count) :
    ∀ (l : List Board) (best : Score) (bm : Option Board) (c : ℕ),
      mmLoop step better l best bm c =
        ⟨(mmLoop step better l best bm 0).score, (mmLoop step better l best bm 0).move,
          c + (mmLoop step better l best bm 0).count⟩ := by
  intro l
  induction l with
  | nil => intro best bm c; rfl
  | cons m rest ih =>
    intro best bm c
    rw [mmLoop_cons, mmLoop_cons, hs m c, hcnt m c]
    by_cases hb : better (step m 0).score best = true
    · rw [if_pos hb, if_pos hb,
        ih (step m 0).score (some m) (c + (step m 0).count),
        ih (step m 0).score (some m) (step m 0).count]
      simp [SR.mk.injEq, Nat.add_assoc]
    · rw [if_neg hb, if_neg hb,
        ih best bm (c + (step m 0).count), ih best bm (step m 0).count]
      simp [SR.mk.injEq, Nat.add_assoc]

theorem abLoopMax_shift {step : Board → Score → ℕ → SR} {beta : Score}
    (hs : ∀ m a c, (step m a c).score = (step m a 0).score)
    (hcnt : ∀ m a c, (step m a c).count = c + (step m a 0).count) :
    ∀ (l : List Board) (best : Score) (bm : Option Board) (alpha : Score) (c : ℕ),
      abLoopMax step beta l best bm alpha c =
        ⟨(abLoopMax step beta l best bm alpha 0).score,
          (abLoopMax step beta l best bm alpha 0).move,
          c + (abLoopMax step beta l best bm alpha 0).count⟩ := by
  intro l
  induction l with
  | nil => intro best bm alpha c; rfl
  | cons m rest ih =>
    intro best bm alpha c
    rw [abLoopMax_cons, abLoopMax_cons, hs m alpha c, hcnt m alpha c]
    by_cases hcut : beta ≤ max alpha
        (if best < (step m alpha 0).score then (step m alpha 0).score else best)
    · rw [if_pos hcut, if_pos hcut]
    · rw [if_neg hcut, if_neg hcut,
        ih _ _ _ (c + (step m alpha 0).count), ih _ _ _ ((step m alpha 0).count)]
      simp [SR.mk.injEq, Nat.add_assoc]

theorem abLoopMin_shift {step : Board → Score → ℕ → SR} {alpha : Score}
    (hs : ∀ m b c, (step m b c).score = (step m b 0).score)
    (hcnt : ∀ m b c, (step m b c).count = c + (step m b 0).count) :
    ∀ (l : List Board) (best : Score) (bm : Option Board) (beta : Score) (c : ℕ),
      abLoopMin step alpha l best bm beta c =
        ⟨(abLoopMin step alpha l best bm beta 0).score,
          (abLoopMin step alpha l best bm beta 0).move,
          c + (abLoopMin step alpha l best bm beta 0).count⟩ := by
  intro l
  induction l with
  | nil => intro best bm beta c; rfl
  | cons m rest ih =>
    intro best bm beta c
    rw [abLoopMin_cons, abLoopMin_cons, hs m beta c, hcnt m beta c]
    by_cases hcut : min beta
        (if (step m beta 0).score < best then (step m beta 0).score else best) ≤ alpha
    · rw [if_pos hcut, if_pos hcut]
    · rw [if_neg hcut, if_neg hcut,
        ih _ _ _ (c + (step m beta 0).count), ih _ _ _ ((step m beta 0).count)]
      simp [SR.mk.injEq, Nat.add_assoc]

theorem minimax_shift (ef : Board → ℚ) :
    ∀ (d : ℕ) (b : Board) (w : Bool) (c : ℕ),
      minimax b d w ef c =
        ⟨(minimax b d w ef 0).score, (minimax b d w ef 0).move,
          c + (minimax b d w ef 0).count⟩ := by
  intro d
  induction d with
  | zero =>
    intro b w c
    rw [minimax_leaf (Or.inl rfl), minimax_leaf (Or.inl rfl)]
  | succ n ih =>
    intro b w c
    by_cases hwin : white_win b = true ∨ black_win b = true
    · rw [minimax_leaf (Or.inr hwin), minimax_leaf (Or.inr hwin)]
    · simp only [not_or, Bool.not_eq_true] at hwin
      obtain ⟨hw, hbk⟩ := hwin
      cases w
      · rw [minimax_black hw hbk, minimax_black hw hbk]
        exact mmLoop_shift (fun m c => by rw [ih m true c])
          (fun m c => by rw [ih m true c]) _ _ _ _
      · rw [minimax_white hw hbk, minimax_white hw hbk]
        exact mmLoop_shift (fun m c => by rw [ih m false c])
          (fun m c => by rw [ih m false c]) _ _ _ _

theorem alphabeta_shift (ef : Board → ℚ) :
    ∀ (d : ℕ) (b : Board) (alpha beta : Score) (w : Bool) (c : ℕ),
      alphabeta b d alpha beta w ef c =
        ⟨(alphabeta b d alpha beta w ef 0).score,
          (alphabeta b d alpha beta w ef 0).move,
          c + (alphabeta b d alpha beta w ef 0).count⟩ := by
  intro d
  induction d with
  | zero =>
    intro b alpha beta w c
    rw [alphabeta_leaf (Or.inl rfl), alphabeta_leaf (Or.inl rfl)]
  | succ n ih =>
    intro b alpha beta w c
    by_cases hwin : white_win b = true ∨ black_win b = true
    · rw [alphabeta_leaf (Or.inr hwin), alphabeta_leaf (Or.inr hwin)]
    · simp only [not_or, Bool.not_eq_true] at hwin
      obtain ⟨hw, hbk⟩ := hwin
      cases w
      · rw [alphabeta_black hw hbk, alphabeta_black hw hbk]
        exact abLoopMin_shift (fun m bb c => by rw [ih m alpha bb true c])
          (fun m bb c => by rw [ih m alpha bb true c]) _ _ _ _ _
      · rw [alphabeta_white hw hbk, alphabeta_white hw hbk]
        exact abLoopMax_shift (fun m a c => by rw [ih m a beta false c])
          (fun m a c => by rw [ih m a beta false c]) _ _ _ _ _

/-! ### Characterization of the minimax loop -/

theorem mmLoop_max_score {step : Board → ℕ → SR} {v : Board → Score}
    (hs : ∀ m c, (step m c).score = v m) :
    ∀ (l : List Board) (best : Score) (bm : Option Board) (c : ℕ),
      (mmLoop step (fun s t => decide (t < s)) l best bm c).score = foldMax v l best := by
  intro l
  induction l with
  | nil => intro best bm c; rfl
  | cons m rest ih =>
    intro best bm c
    rw [mmLoop_cons, foldMax_cons, hs m c]
    by_cases hlt : best < v m
    · rw [if_pos (decide_eq_true hlt), ih, max_eq_right hlt.le]
    · rw [if_neg (by simpa using hlt), ih, max_eq_left (not_lt.mp hlt)]

theorem mmLoop_min_score {step : Board → ℕ → SR} {v : Board → Score}
    (hs : ∀ m c, (step m c).score = v m) :
    ∀ (l : List Board) (best : Score) (bm : Option Board) (c : ℕ),
      (mmLoop step (fun s t => decide (s < t)) l best bm c).score = foldMin v l best := by
  intro l
  induction l with
  | nil => intro best bm c; rfl
  | cons m rest ih =>
    intro best bm c
    rw [mmLoop_cons, foldMin_cons, hs m c]
    by_cases hlt : v m < best
    · rw [if_pos (decide_eq_true hlt), ih, min_eq_right hlt.le]
    · rw [if_neg (by simpa using hlt), ih, min_eq_left (not_lt.mp hlt)]

theorem mmLoop_max_move {step : Board → ℕ → SR} {v : Board → Score}
    (hs : ∀ m c, (step m c).score = v m) :
    ∀ (l : List Board) (best : Score) (bm : Option Board) (c : ℕ),
      (mmLoop step (fun s t => decide (t < s)) l best bm c).move =
        if best < foldMax v l best then
          l.find? (fun m => decide (v m = foldMax v l best))
        else bm := by
  intro l
  induction l with
  | nil =>
    intro best bm c
    rw [mmLoop_nil, foldMax_nil, if_neg (lt_irrefl best)]
  | cons m rest ih =>
    intro best bm c
    rw [mmLoop_cons, foldMax_cons, hs m c]
    by_cases hlt : best < v m
    · rw [if_pos (decide_eq_true hlt), ih, max_eq_right hlt.le]
      have hmV : v m ≤ foldMax v rest (v m) := le_foldMax v rest (v m)
      have hbV : best < foldMax v rest (v m) := lt_of_lt_of_le hlt hmV
      rw [if_pos hbV]
      by_cases heq : v m = foldMax v rest (v m)
      · rw [if_neg (by rw [← heq]; exact lt_irrefl (v m)),
          @List.find?_cons_of_pos _ (fun m1 => decide (v m1 = foldMax v rest (v m))) m
            rest (decide_eq_true heq)]
      · rw [if_pos (lt_of_le_of_ne hmV heq),
          @List.find?_cons_of_neg _ (fun m1 => decide (v m1 = foldMax v rest (v m))) m
            rest (by simpa using heq)]
    · have hle : v m ≤ best := not_lt.mp hlt
      rw [if_neg (by simpa using hlt), ih, max_eq_left hle]
      by_cases hbV : best < foldMax v rest best
      · rw [if_pos hbV, if_pos hbV,
          @List.find?_cons_of_neg _ (fun m1 => decide (v m1 = foldMax v rest best)) m
            rest ?_]
        simp only [decide_eq_true_eq]
        intro heq
        rw [heq] at hle
        exact absurd hbV (not_lt.mpr hle)
      · rw [if_neg hbV, if_neg hbV]

theorem mmLoop_min_move {step : Board → ℕ → SR} {v : Board → Score}
    (hs : ∀ m c, (step m c).score = v m) :
    ∀ (l : List Board) (best : Score) (bm : Option Board) (c : ℕ),
      (mmLoop step (fun s t => decide (s < t)) l best bm c).move =
        if foldMin v l best < best then
          l.find? (fun m => decide (v m = foldMin v l best))
        else bm := by
  intro l
  induction l with
  | nil =>
    intro best bm c
    rw [mmLoop_nil, foldMin_nil, if_neg (lt_irrefl best)]
  | cons m rest ih =>
    intro best bm c
    rw [mmLoop_cons, foldMin_cons, hs m c]
    by_cases hlt : v m < best
    · rw [if_pos (decide_eq_true hlt), ih, min_eq_right hlt.le]
      have hmV : foldMin v rest (v m) ≤ v m := foldMin_le v rest (v m)
      have hbV : foldMin v rest (v m) < best := lt_of_le_of_lt hmV hlt
      rw [if_pos hbV]
      by_cases heq : v m = foldMin v rest (v m)
      · rw [if_neg (by rw [← heq]; exact lt_irrefl (v m)),
          @List.find?_cons_of_pos _ (fun m1 => decide (v m1 = foldMin v rest (v m))) m
            rest (decide_eq_true heq)]
      · rw [if_pos (lt_of_le_of_ne hmV (fun h => heq h.symm)),
          @List.find?_cons_of_neg _ (fun m1 => decide (v m1 = foldMin v rest (v m))) m
            rest (by simpa using heq)]
    · have hle : best ≤ v m := not_lt.mp hlt
      rw [if_neg (by simpa using hlt), ih, min_eq_left hle]
      by_cases hbV : foldMin v rest best < best
      · rw [if_pos hbV, if_pos hbV,
          @List.find?_cons_of_neg _ (fun m1 => decide (v m1 = foldMin v rest best)) m
            rest ?_]
        simp only [decide_eq_true_eq]
        intro heq
        rw [heq] at hle
        exact absurd hbV (not_lt.mpr hle)
      · rw [if_neg hbV, if_neg hbV]

theorem mmLoop_count {step : Board → ℕ → SR} {better : Score → Score → Bool}
    (hcnt : ∀ m c, (step m c).count = c + (step m 0).count) :
    ∀ (l : List Board) (best : Score) (bm : Option Board) (c : ℕ),
      (mmLoop step better l best bm c).count =
        c + (l.map (fun m => (step m 0).count)).sum := by
  intro l
  induction l with
  | nil => intro best bm c; simp [mmLoop_nil]
  | cons m rest ih =>
    intro best bm c
    rw [mmLoop_cons, hcnt m c]
    simp only [List.map_cons, List.sum_cons]
    by_cases hb : better (step m c).score best = true
    · rw [if_pos hb, ih]; omega
    · rw [if_neg hb, ih]; omega

theorem mmLoop_count_ge {step : Board → ℕ → SR} {better : Score → Score → Bool}
    (hge : ∀ m c, c ≤ (step m c).count) :
    ∀ (l : List Board) (best : Score) (bm : Option Board) (c : ℕ),
      c ≤ (mmLoop step better l best bm c).count := by
  intro l
  induction l with
  | nil => intro best bm c; exact le_refl c
  | cons m rest ih =>
    intro best bm c
    rw [mmLoop_cons]
    by_cases hb : better (step m c).score best = true
    · rw [if_pos hb]; exact le_trans (hge m c) (ih _ _ _)
    · rw [if_neg hb]; exact le_trans (hge m c) (ih _ _ _)

theorem abLoopMax_count_ge {step : Board → Score → ℕ → SR} {beta : Score}
    (hge : ∀ m a c, c ≤ (step m a c).count) :
    ∀ (l : List Board) (best : Score) (bm : Option Board) (alpha : Score) (c : ℕ),
      c ≤ (abLoopMax step beta l best bm alpha c).count := by
  intro l
  induction l with
  | nil => intro best bm alpha c; exact le_refl c
  | cons m rest ih =>
    intro best bm alpha c
    rw [abLoopMax_cons]
    by_cases hcut : beta ≤ max alpha
        (if best < (step m alpha c).score then (step m alpha c).score else best)
    · rw [if_pos hcut]; exact hge m alpha c
    · rw [if_neg hcut]; exact le_trans (hge m alpha c) (ih _ _ _ _)

theorem abLoopMin_count_ge {step : Board → Score → ℕ → SR} {alpha : Score}
    (hge : ∀ m b c, c ≤ (step m b c).count) :
    ∀ (l : List Board) (best : Score) (bm : Option Board) (beta : Score) (c : ℕ),
      c ≤ (abLoopMin step alpha l best bm beta c).count := by
  intro l
  induction l with
  | nil => intro best bm beta c; exact le_refl c
  | cons m rest ih =>
    intro best bm beta c
    rw [abLoopMin_cons]
    by_cases hcut : min beta
        (if (step m beta c).score < best then (step m beta c).score else best) ≤ alpha
    · rw [if_pos hcut]; exact hge m beta c
    · rw [if_neg hcut]; exact le_trans (hge m beta c) (ih _ _ _ _)

theorem abLoopMax_count_ge_first {step : Board → Score → ℕ → SR} {beta : Score}
    (hge : ∀ m a c, c ≤ (step m a c).count) (m : Board) (rest : List Board)
    (best : Score) (bm : Option Board) (alpha : Score) (c : ℕ) :
    (step m alpha c).count ≤ (abLoopMax step beta (m :: rest) best bm alpha c).count := by
  rw [abLoopMax_cons]
  by_cases hlt : best < (step m alpha c).score
  · simp only [if_pos hlt]
    split
    · exact le_refl _
    · exact abLoopMax_count_ge hge rest _ _ _ _
  · simp only [if_neg hlt]
    split
    · exact le_refl _
    · exact abLoopMax_count_ge hge rest _ _ _ _

theorem abLoopMin_count_ge_first {step : Board → Score → ℕ → SR} {alpha : Score}
    (hge : ∀ m b c, c ≤ (step m b c).count) (m : Board) (rest : List Board)
    (best : Score) (bm : Option Board) (beta : Score) (c : ℕ) :
    (step m beta c).count ≤ (abLoopMin step alpha (m :: rest) best bm beta c).count := by
  rw [abLoopMin_cons]
  by_cases hlt : (step m beta c).score < best
  · simp only [if_pos hlt]
    split
    · exact le_refl _
    · exact abLoopMin_count_ge hge rest _ _ _ _
  · simp only [if_neg hlt]
    split
    · exact le_refl _
    · exact abLoopMin_count_ge hge rest _ _ _ _

theorem abLoopMax_count_le {step : Board → Score → ℕ → SR} {beta : Score}
    {w : Board → ℕ}
    (hcnt : ∀ m a c, (step m a c).count = c + (step m a 0).count)
    (hle : ∀ m a, (step m a 0).count ≤ w m) :
    ∀ (l : List Board) (best : Score) (bm : Option Board) (alpha : Score) (c : ℕ),
      (abLoopMax step beta l best bm alpha c).count ≤ c + (l.map w).sum := by
  intro l
  induction l with
  | nil => intro best bm alpha c; simp [abLoopMax_nil]
  | cons m rest ih =>
    intro best bm alpha c
    rw [abLoopMax_cons]
    simp only [List.map_cons, List.sum_cons]
    by_cases hcut : beta ≤ max alpha
        (if best < (step m alpha c).score then (step m alpha c).score else best)
    · rw [if_pos hcut]
      dsimp only
      have := hle m alpha
      have := hcnt m alpha c
      omega
    · rw [if_neg hcut]
      have h1 := ih (if best < (step m alpha c).score then (step m alpha c).score else best)
        (if best < (step m alpha c).score then some m else bm)
        (max alpha (if best < (step m alpha c).score then (step m alpha c).score else best))
        ((step m alpha c).count)
      have := hle m alpha
      have := hcnt m alpha c
      omega

theorem abLoopMin_count_le {step : Board → Score → ℕ → SR} {alpha : Score}
    {w : Board → ℕ}
    (hcnt : ∀ m b c, (step m b c).count = c + (step m b 0).count)
    (hle : ∀ m b, (step m b 0).count ≤ w m) :
    ∀ (l : List Board) (best : Score) (bm : Option Board) (beta : Score) (c : ℕ),
      (abLoopMin step alpha l best bm beta c).count ≤ c + (l.map w).sum := by
  intro l
  induction l with
  | nil => intro best bm beta c; simp [abLoopMin_nil]
  | cons m rest ih =>
    intro best bm beta c
    rw [abLoopMin_cons]
    simp only [List.map_cons, List.sum_cons]
    by_cases hcut : min beta
        (if (step m beta c).score < best then (step m beta c).score else best) ≤ alpha
    · rw [if_pos hcut]
      dsimp only
      have := hle m beta
      have := hcnt m beta c
      omega
    · rw [if_neg hcut]
      have h1 := ih (if (step m beta c).score < best then (step m beta c).score else best)
        (if (step m beta c).score < best then some m else bm)
        (min beta (if (step m beta c).score < best then (step m beta c).score else best))
        ((step m beta c).count)
      have := hle m beta
      have := hcnt m beta c
      omega

/-! ### Finiteness of returned scores and definedness of returned moves -/

theorem minimax_score_finite (ef : Board → ℚ) :
    ∀ (d : ℕ) (b : Board) (w : Bool) (c : ℕ),
      (minimax b d w ef c).score ≠ ⊥ ∧ (minimax b d w ef c).score ≠ ⊤ := by
  intro d
  induction d with
  | zero =>
    intro b w c
    rw [minimax_leaf (Or.inl rfl)]
    exact ⟨finScore_ne_bot _, finScore_ne_top _⟩
  | succ n ih =>
    intro b w c
    by_cases hwin : white_win b = true ∨ black_win b = true
    · rw [minimax_leaf (Or.inr hwin)]
      exact ⟨finScore_ne_bot _, finScore_ne_top _⟩
    · simp only [not_or, Bool.not_eq_true] at hwin
      obtain ⟨hw, hbk⟩ := hwin
      cases w
      · rw [minimax_black hw hbk,
          mmLoop_min_score (fun m c' => by rw [minimax_shift ef n m true c'])]
        obtain ⟨m0, rest, hms⟩ :=
          List.exists_cons_of_ne_nil (generate_black_moves_ne_nil hbk)
        have hm0 : m0 ∈ generate_black_moves b := by
          rw [hms]; exact List.mem_cons_self m0 rest
        have hv := ih m0 true 0
        constructor
        · rcases foldMin_cases (fun m => (minimax m n true ef 0).score)
            (generate_black_moves b) ⊤ with h | ⟨m', hm', h⟩
          · rw [h]; exact score_bot_lt_top.ne'
          · rw [h]; exact (ih m' true 0).1
        · have hlt : foldMin (fun m => (minimax m n true ef 0).score)
              (generate_black_moves b) ⊤ ≤ (minimax m0 n true ef 0).score :=
            foldMin_le_of_mem (fun m => (minimax m n true ef 0).score) ⊤ hm0
          have : foldMin (fun m => (minimax m n true ef 0).score)
              (generate_black_moves b) ⊤ < ⊤ :=
            lt_of_le_of_lt hlt (lt_top_iff_ne_top.mpr hv.2)
          exact this.ne
      · rw [minimax_white hw hbk,
          mmLoop_max_score (fun m c' => by rw [minimax_shift ef n m false c'])]
        obtain ⟨m0, rest, hms⟩ :=
          List.exists_cons_of_ne_nil (generate_white_moves_ne_nil hw)
        have hm0 : m0 ∈ generate_white_moves b := by
          rw [hms]; exact List.mem_cons_self m0 rest
        have hv := ih m0 false 0
        constructor
        · have hlt : (minimax m0 n false ef 0).score ≤
              foldMax (fun m => (minimax m n false ef 0).score)
                (generate_white_moves b) ⊥ :=
            foldMax_le_of_mem (fun m => (minimax m n false ef 0).score) ⊥ hm0
          have : (⊥ : Score) < foldMax (fun m => (minimax m n false ef 0).score)
              (generate_white_moves b) ⊥ :=
            lt_of_lt_of_le (bot_lt_iff_ne_bot.mpr hv.1) hlt
          exact this.ne'
        · rcases foldMax_cases (fun m => (minimax m n false ef 0).score)
            (generate_white_moves b) ⊥ with h | ⟨m', hm', h⟩
          · rw [h]; exact score_bot_lt_top.ne
          · rw [h]; exact (ih m' false 0).2

theorem minimax_move_isSome (ef : Board → ℚ) :
    ∀ (d : ℕ) (b : Board) (w : Bool) (c : ℕ),
      (minimax b d w ef c).move.isSome = true := by
  intro d
  induction d with
  | zero =>
    intro b w c
    rw [minimax_leaf (Or.inl rfl)]
    rfl
  | succ n ih =>
    intro b w c
    by_cases hwin : white_win b = true ∨ black_win b = true
    · rw [minimax_leaf (Or.inr hwin)]
      rfl
    · simp only [not_or, Bool.not_eq_true] at hwin
      obtain ⟨hw, hbk⟩ := hwin
      cases w
      · rw [minimax_black hw hbk,
          mmLoop_min_move (fun m c' => by rw [minimax_shift ef n m true c'])]
        obtain ⟨m0, rest, hms⟩ :=
          List.exists_cons_of_ne_nil (generate_black_moves_ne_nil hbk)
        have hm0 : m0 ∈ generate_black_moves b := by
          rw [hms]; exact List.mem_cons_self m0 rest
        have hVlt : foldMin (fun m => (minimax m n true ef 0).score)
            (generate_black_moves b) ⊤ < ⊤ :=
          lt_of_le_of_lt
            (foldMin_le_of_mem (fun m => (minimax m n true ef 0).score) ⊤ hm0)
            (lt_top_iff_ne_top.mpr (minimax_score_finite ef n m0 true 0).2)
        rw [if_pos hVlt]
        rcases foldMin_cases (fun m => (minimax m n true ef 0).score)
            (generate_black_moves b) ⊤ with h | ⟨m', hm', h⟩
        · rw [h] at hVlt; exact absurd hVlt (lt_irrefl ⊤)
        · cases hfind : (generate_black_moves b).find?
              (fun m => decide ((minimax m n true ef 0).score =
                foldMin (fun m => (minimax m n true ef 0).score)
                  (generate_black_moves b) ⊤)) with
          | none =>
            exfalso
            exact absurd (decide_eq_true h.symm)
              (List.find?_eq_none.mp hfind m' hm')
          | some mv => rfl
      · rw [minimax_white hw hbk,
          mmLoop_max_move (fun m c' => by rw [minimax_shift ef n m false c'])]
        obtain ⟨m0, rest, hms⟩ :=
          List.exists_cons_of_ne_nil (generate_white_moves_ne_nil hw)
        have hm0 : m0 ∈ generate_white_moves b := by
          rw [hms]; exact List.mem_cons_self m0 rest
        have hVlt : (⊥ : Score) < foldMax (fun m => (minimax m n false ef 0).score)
            (generate_white_moves b) ⊥ :=
          lt_of_lt_of_le
            (bot_lt_iff_ne_bot.mpr (minimax_score_finite ef n m0 false 0).1)
            (foldMax_le_of_mem (fun m => (minimax m n false ef 0).score) ⊥ hm0)
        rw [if_pos hVlt]
        rcases foldMax_cases (fun m => (minimax m n false ef 0).score)
            (generate_white_moves b) ⊥ with h | ⟨m', hm', h⟩
        · rw [h] at hVlt; exact absurd hVlt (lt_irrefl ⊥)
        · cases hfind : (generate_white_moves b).find?
              (fun m => decide ((minimax m n false ef 0).score =
                foldMax (fun m => (minimax m n false ef 0).score)
                  (generate_white_moves b) ⊥)) with
          | none =>
            exfalso
            exact absurd (decide_eq_true h.symm)
              (List.find?_eq_none.mp hfind m' hm')
          | some mv => rfl

/-! ### Alpha-beta loop score and move lemmas -/

theorem abLoopMax_score_ne_bot {step : Board → Score → ℕ → SR} {beta : Score}
    (hstep : ∀ m a c, (step m a c).score ≠ ⊥) :
    ∀ (l : List Board) (best : Score) (bm : Option Board) (alpha : Score) (c : ℕ),
      (best ≠ ⊥ ∨ l ≠ []) → (abLoopMax step beta l best bm alpha c).score ≠ ⊥ := by
  intro l
  induction l with
  | nil =>
    intro best bm alpha c h
    rcases h with h | h
    · exact h
    · exact absurd rfl h
  | cons m rest ih =>
    intro best bm alpha c _
    rw [abLoopMax_cons]
    have hbest' : (if best < (step m alpha c).score then (step m alpha c).score else best) ≠ ⊥ := by
      by_cases hlt : best < (step m alpha c).score
      · rw [if_pos hlt]; exact hstep m alpha c
      · rw [if_neg hlt]
        have : (⊥ : Score) < (step m alpha c).score :=
          bot_lt_iff_ne_bot.mpr (hstep m alpha c)
        exact (lt_of_lt_of_le this (not_lt.mp hlt)).ne'
    by_cases hcut : beta ≤ max alpha
        (if best < (step m alpha c).score then (step m alpha c).score else best)
    · rw [if_pos hcut]; exact hbest'
    · rw [if_neg hcut]; exact ih _ _ _ _ (Or.inl hbest')

theorem abLoopMax_score_ne_top {step : Board → Score → ℕ → SR} {beta : Score}
    (hstep : ∀ m a c, (step m a c).score ≠ ⊤) :
    ∀ (l : List Board) (best : Score) (bm : Option Board) (alpha : Score) (c : ℕ),
      best ≠ ⊤ → (abLoopMax step beta l best bm alpha c).score ≠ ⊤ := by
  intro l
  induction l with
  | nil => intro best bm alpha c h; exact h
  | cons m rest ih =>
    intro best bm alpha c hb
    rw [abLoopMax_cons]
    have hbest' : (if best < (step m alpha c).score then (step m alpha c).score else best) ≠ ⊤ := by
      by_cases hlt : best < (step m alpha c).score
      · rw [if_pos hlt]; exact hstep m alpha c
      · rw [if_neg hlt]; exact hb
    by_cases hcut : beta ≤ max alpha
        (if best < (step m alpha c).score then (step m alpha c).score else best)
    · rw [if_pos hcut]; exact hbest'
    · rw [if_neg hcut]; exact ih _ _ _ _ hbest'

theorem abLoopMin_score_ne_top {step : Board → Score → ℕ → SR} {alpha : Score}
    (hstep : ∀ m b c, (step m b c).score ≠ ⊤) :
    ∀ (l : List Board) (best : Score) (bm : Option Board) (beta : Score) (c : ℕ),
      (best ≠ ⊤ ∨ l ≠ []) → (abLoopMin step alpha l best bm beta c).score ≠ ⊤ := by
  intro l
  induction l with
  | nil =>
    intro best bm beta c h
    rcases h with h | h
    · exact h
    · exact absurd rfl h
  | cons m rest ih =>
    intro best bm beta c _
    rw [abLoopMin_cons]
    have hbest' : (if (step m beta c).score < best then (step m beta c).score else best) ≠ ⊤ := by
      by_cases hlt : (step m beta c).score < best
      · rw [if_pos hlt]; exact hstep m beta c
      · rw [if_neg hlt]
        have : (step m beta c).score < ⊤ :=
          lt_top_iff_ne_top.mpr (hstep m beta c)
        exact (lt_of_le_of_lt (not_lt.mp hlt) this).ne
    by_cases hcut : min beta
        (if (step m beta c).score < best then (step m beta c).score else best) ≤ alpha
    · rw [if_pos hcut]; exact hbest'
    · rw [if_neg hcut]; exact ih _ _ _ _ (Or.inl hbest')

theorem abLoopMin_score_ne_bot {step : Board → Score → ℕ → SR} {alpha : Score}
    (hstep : ∀ m b c, (step m b c).score ≠ ⊥) :
    ∀ (l : List Board) (best : Score) (bm : Option Board) (beta : Score) (c : ℕ),
      best ≠ ⊥ → (abLoopMin step alpha l best bm beta c).score ≠ ⊥ := by
  intro l
  induction l with
  | nil => intro best bm beta c h; exact h
  | cons m rest ih =>
    intro best bm beta c hb
    rw [abLoopMin_cons]
    have hbest' : (if (step m beta c).score < best then (step m beta c).score else best) ≠ ⊥ := by
      by_cases hlt : (step m beta c).score < best
      · rw [if_pos hlt]; exact hstep m beta c
      · rw [if_neg hlt]; exact hb
    by_cases hcut : min beta
        (if (step m beta c).score < best then (step m beta c).score else best) ≤ alpha
    · rw [if_pos hcut]; exact hbest'
    · rw [if_neg hcut]; exact ih _ _ _ _ hbest'

theorem abLoopMax_move_keep {step : Board → Score → ℕ → SR} {beta : Score} :
    ∀ (l : List Board) (best : Score) (bm : Option Board) (alpha : Score) (c : ℕ),
      bm.isSome = true → (abLoopMax step beta l best bm alpha c).move.isSome = true := by
  intro l
  induction l with
  | nil => intro best bm alpha c h; exact h
  | cons m rest ih =>
    intro best bm alpha c h
    rw [abLoopMax_cons]
    have hbm' : (if best < (step m alpha c).score then some m else bm).isSome = true := by
      by_cases hlt : best < (step m alpha c).score
      · rw [if_pos hlt]; rfl
      · rw [if_neg hlt]; exact h
    by_cases hcut : beta ≤ max alpha
        (if best < (step m alpha c).score then (step m alpha c).score else best)
    · rw [if_pos hcut]; exact hbm'
    · rw [if_neg hcut]; exact ih _ _ _ _ hbm'

theorem abLoopMin_move_keep {step : Board → Score → ℕ → SR} {alpha : Score} :
    ∀ (l : List Board) (best : Score) (bm : Option Board) (beta : Score) (c : ℕ),
      bm.isSome = true → (abLoopMin step alpha l best bm beta c).move.isSome = true := by
  intro l
  induction l with
  | nil => intro best bm beta c h; exact h
  | cons m rest ih =>
    intro best bm beta c h
    rw [abLoopMin_cons]
    have hbm' : (if (step m beta c).score < best then some m else bm).isSome = true := by
      by_cases hlt : (step m beta c).score < best
      · rw [if_pos hlt]; rfl
      · rw [if_neg hlt]; exact h
    by_cases hcut : min beta
        (if (step m beta c).score < best then (step m beta c).score else best) ≤ alpha
    · rw [if_pos hcut]; exact hbm'
    · rw [if_neg hcut]; exact ih _ _ _ _ hbm'

theorem abLoopMax_move_some {step : Board → Score → ℕ → SR} {beta : Score}
    (hstep : ∀ m a c, (step m a c).score ≠ ⊥) (m : Board) (rest : List Board)
    (bm : Option Board) (alpha : Score) (c : ℕ) :
    (abLoopMax step beta (m :: rest) ⊥ bm alpha c).move.isSome = true := by
  rw [abLoopMax_cons]
  have hlt : (⊥ : Score) < (step m alpha c).score :=
    bot_lt_iff_ne_bot.mpr (hstep m alpha c)
  simp only [if_pos hlt]
  by_cases hcut : beta ≤ max alpha (step m alpha c).score
  · rw [if_pos hcut]; rfl
  · rw [if_neg hcut]; exact abLoopMax_move_keep _ _ _ _ _ rfl

theorem abLoopMin_move_some {step : Board → Score → ℕ → SR} {alpha : Score}
    (hstep : ∀ m b c, (step m b c).score ≠ ⊤) (m : Board) (rest : List Board)
    (bm : Option Board) (beta : Score) (c : ℕ) :
    (abLoopMin step alpha (m :: rest) ⊤ bm beta c).move.isSome = true := by
  rw [abLoopMin_cons]
  have hlt : (step m beta c).score < ⊤ :=
    lt_top_iff_ne_top.mpr (hstep m beta c)
  simp only [if_pos hlt]
  by_cases hcut : min beta (step m beta c).score ≤ alpha
  · rw [if_pos hcut]; rfl
  · rw [if_neg hcut]; exact abLoopMin_move_keep _ _ _ _ _ rfl

theorem alphabeta_score_finite (ef : Board → ℚ) :
    ∀ (d : ℕ) (b : Board) (alpha beta : Score) (w : Bool) (c : ℕ),
      (alphabeta b d alpha beta w ef c).score ≠ ⊥ ∧
      (alphabeta b d alpha beta w ef c).score ≠ ⊤ := by
  intro d
  induction d with
  | zero =>
    intro b alpha beta w c
    rw [alphabeta_leaf (Or.inl rfl)]
    exact ⟨finScore_ne_bot _, finScore_ne_top _⟩
  | succ n ih =>
    intro b alpha beta w c
    by_cases hwin : white_win b = true ∨ black_win b = true
    · rw [alphabeta_leaf (Or.inr hwin)]
      exact ⟨finScore_ne_bot _, finScore_ne_top _⟩
    · simp only [not_or, Bool.not_eq_true] at hwin
      obtain ⟨hw, hbk⟩ := hwin
      cases w
      · rw [alphabeta_black hw hbk]
        constructor
        · exact abLoopMin_score_ne_bot
            (fun m bb c' => (ih m alpha bb true c').1) _ _ _ _ _
            score_bot_lt_top.ne'
        · exact abLoopMin_score_ne_top
            (fun m bb c' => (ih m alpha bb true c').2) _ _ _ _ _
            (Or.inr (generate_black_moves_ne_nil hbk))
      · rw [alphabeta_white hw hbk]
        constructor
        · exact abLoopMax_score_ne_bot
            (fun m a c' => (ih m a beta false c').1) _ _ _ _ _
            (Or.inr (generate_white_moves_ne_nil hw))
        · exact abLoopMax_score_ne_top
            (fun m a c' => (ih m a beta false c').2) _ _ _ _ _
            score_bot_lt_top.ne

theorem alphabeta_move_isSome (ef : Board → ℚ) :
    ∀ (d : ℕ) (b : Board) (alpha beta : Score) (w : Bool) (c : ℕ),
      (alphabeta b d alpha beta w ef c).move.isSome = true := by
  intro d
  induction d with
  | zero =>
    intro b alpha beta w c
    rw [alphabeta_leaf (Or.inl rfl)]
    rfl
  | succ n ih =>
    intro b alpha beta w c
    by_cases hwin : white_win b = true ∨ black_win b = true
    · rw [alphabeta_leaf (Or.inr hwin)]
      rfl
    · simp only [not_or, Bool.not_eq_true] at hwin
      obtain ⟨hw, hbk⟩ := hwin
      cases w
      · rw [alphabeta_black hw hbk]
        obtain ⟨m0, rest, hms⟩ :=
          List.exists_cons_of_ne_nil (generate_black_moves_ne_nil hbk)
        rw [hms]
        exact abLoopMin_move_some
          (fun m bb c' => (alphabeta_score_finite ef n m alpha bb true c').2)
          m0 rest none _ c
      · rw [alphabeta_white hw hbk]
        obtain ⟨m0, rest, hms⟩ :=
          List.exists_cons_of_ne_nil (generate_white_moves_ne_nil hw)
        rw [hms]
        exact abLoopMax_move_some
          (fun m a c' => (alphabeta_score_finite ef n m a beta false c').1)
          m0 rest none _ c

/-! ### Claims C8 and C9: counter monotonicity and totality -/

theorem minimax_count_lt (ef : Board → ℚ) :
    ∀ (d : ℕ) (b : Board) (w : Bool) (c : ℕ), c < (minimax b d w ef c).count := by
  intro d
  induction d with
  | zero =>
    intro b w c
    rw [minimax_leaf (Or.inl rfl)]
    dsimp only
    omega
  | succ n ih =>
    intro b w c
    by_cases hwin : white_win b = true ∨ black_win b = true
    · rw [minimax_leaf (Or.inr hwin)]
      dsimp only
      omega
    · simp only [not_or, Bool.not_eq_true] at hwin
      obtain ⟨hw, hbk⟩ := hwin
      cases w
      · rw [minimax_black hw hbk]
        obtain ⟨m0, rest, hms⟩ :=
          List.exists_cons_of_ne_nil (generate_black_moves_ne_nil hbk)
        rw [hms, mmLoop_cons]
        have h0 : c < (minimax m0 n true ef c).count := ih m0 true c
        have hge : ∀ m c', c' ≤ (minimax m n true ef c').count :=
          fun m c' => (ih m true c').le
        split
        · exact lt_of_lt_of_le h0 (mmLoop_count_ge hge rest _ _ _)
        · exact lt_of_lt_of_le h0 (mmLoop_count_ge hge rest _ _ _)
      · rw [minimax_white hw hbk]
        obtain ⟨m0, rest, hms⟩ :=
          List.exists_cons_of_ne_nil (generate_white_moves_ne_nil hw)
        rw [hms, mmLoop_cons]
        have h0 : c < (minimax m0 n false ef c).count := ih m0 false c
        have hge : ∀ m c', c' ≤ (minimax m n false ef c').count :=
          fun m c' => (ih m false c').le
        split
        · exact lt_of_lt_of_le h0 (mmLoop_count_ge hge rest _ _ _)
        · exact lt_of_lt_of_le h0 (mmLoop_count_ge hge rest _ _ _)

theorem alphabeta_count_lt (ef : Board → ℚ) :
    ∀ (d : ℕ) (b : Board) (alpha beta : Score) (w : Bool) (c : ℕ),
      c < (alphabeta b d alpha beta w ef c).count := by
  intro d
  induction d with
  | zero =>
    intro b alpha beta w c
    rw [alphabeta_leaf (Or.inl rfl)]
    dsimp only
    omega
  | succ n ih =>
    intro b alpha beta w c
    by_cases hwin : white_win b = true ∨ black_win b = true
    · rw [alphabeta_leaf (Or.inr hwin)]
      dsimp only
      omega
    · simp only [not_or, Bool.not_eq_true] at hwin
      obtain ⟨hw, hbk⟩ := hwin
      cases w
      · rw [alphabeta_black hw hbk]
        obtain ⟨m0, rest, hms⟩ :=
          List.exists_cons_of_ne_nil (generate_black_moves_ne_nil hbk)
        rw [hms]
        have h0 : c < (alphabeta m0 n alpha beta true ef c).count :=
          ih m0 alpha beta true c
        have hge : ∀ m bb c', c' ≤ (alphabeta m n alpha bb true ef c').count :=
          fun m bb c' => (ih m alpha bb true c').le
        exact lt_of_lt_of_le h0
          (abLoopMin_count_ge_first (fun m bb c' => hge m bb c') m0 rest ⊤ none beta c)
      · rw [alphabeta_white hw hbk]
        obtain ⟨m0, rest, hms⟩ :=
          List.exists_cons_of_ne_nil (generate_white_moves_ne_nil hw)
        rw [hms]
        have h0 : c < (alphabeta m0 n alpha beta false ef c).count :=
          ih m0 alpha beta false c
        have hge : ∀ m a c', c' ≤ (alphabeta m n a beta false ef c').count :=
          fun m a c' => (ih m a beta false c').le
        exact lt_of_lt_of_le h0
          (abLoopMax_count_ge_first (fun m a c' => hge m a c') m0 rest ⊥ none alpha c)

/-- C8: the `positions_evaluated` counter strictly increases across every
completed `minimax` and `alphabeta` call (it is never decremented on any
path, including cutoff exits), and at a leaf (depth 0 or a win) it is
incremented exactly once. -/
theorem C8_counter_monotone (b : Board) (d : ℕ) (w : Bool) (ef : Board → ℚ)
    (c : ℕ) (alpha beta : Score) :
    c < (minimax b d w ef c).count ∧
    c < (alphabeta b d alpha beta w ef c).count ∧
    (if d = 0 ∨ white_win b = true ∨ black_win b = true then
      (minimax b d w ef c).count = c + 1 ∧
      (alphabeta b d alpha beta w ef c).count = c + 1
     else True) := by
  refine ⟨minimax_count_lt ef d b w c, alphabeta_count_lt ef d b alpha beta w c, ?_⟩
  by_cases h : d = 0 ∨ white_win b = true ∨ black_win b = true
  · rw [if_pos h, minimax_leaf h, alphabeta_leaf h]
    exact ⟨rfl, rfl⟩
  · rw [if_neg h]
    trivial

/-- C9: a side that has not won always has at least one move, and the
two search routines always return a chosen board (never `None`). -/
theorem C9_total_search (b : Board) (hb : b.length = 16) (d : ℕ) (w : Bool)
    (ef : Board → ℚ) (c : ℕ) (alpha beta : Score) :
    (white_win b = true ∨ generate_white_moves b ≠ []) ∧
    (black_win b = true ∨ generate_black_moves b ≠ []) ∧
    (minimax b d w ef c).move.isSome = true ∧
    (alphabeta b d alpha beta w ef c).move.isSome = true := by
  refine ⟨?_, ?_, minimax_move_isSome ef d b w c,
    alphabeta_move_isSome ef d b alpha beta w c⟩
  · cases h : white_win b
    · exact Or.inr (generate_white_moves_ne_nil h)
    · exact Or.inl rfl
  · cases h : black_win b
    · exact Or.inr (generate_black_moves_ne_nil h)
    · exact Or.inl rfl

theorem C9_total_search_witness :
    (wb0.length = 16) ∧
    ((white_win wb0 = true ∨ generate_white_moves wb0 ≠ []) ∧
      (black_win wb0 = true ∨ generate_black_moves wb0 ≠ []) ∧
      (minimax wb0 2 true static_evaluation 0).move.isSome = true ∧
      (alphabeta wb0 2 ⊥ ⊤ true static_evaluation 0).move.isSome = true) :=
  ⟨by decide, C9_total_search wb0 (by decide) 2 true static_evaluation 0 ⊥ ⊤⟩

/-! ### Fail-soft correctness of the alpha-beta loops -/

theorem abLoopMax_failsoft {step : Board → Score → ℕ → SR} {v : Board → Score}
    {alpha0 beta : Score}
    (hstep : ∀ m a c, a < beta →
      (((step m a c).score ≤ a → v m ≤ (step m a c).score) ∧
       (beta ≤ (step m a c).score → (step m a c).score ≤ v m) ∧
       (a < (step m a c).score → (step m a c).score < beta →
         (step m a c).score = v m))) :
    ∀ (l : List Board) (best : Score) (bm : Option Board) (c : ℕ),
      max alpha0 best < beta →
      (((abLoopMax step beta l best bm (max alpha0 best) c).score ≤ alpha0 →
          foldMax v l best ≤ (abLoopMax step beta l best bm (max alpha0 best) c).score) ∧
       (beta ≤ (abLoopMax step beta l best bm (max alpha0 best) c).score →
          (abLoopMax step beta l best bm (max alpha0 best) c).score ≤ foldMax v l best) ∧
       (alpha0 < (abLoopMax step beta l best bm (max alpha0 best) c).score →
          (abLoopMax step beta l best bm (max alpha0 best) c).score < beta →
          (abLoopMax step beta l best bm (max alpha0 best) c).score = foldMax v l best)) := by
  intro l
  induction l with
  | nil =>
    intro best bm c hab
    rw [abLoopMax_nil, foldMax_nil]
    exact ⟨fun _ => le_refl best, fun _ => le_refl best, fun _ _ => rfl⟩
  | cons m rest ih =>
    intro best bm c hab
    have halpha0beta : alpha0 < beta := lt_of_le_of_lt (le_max_left alpha0 best) hab
    have hbestbeta : best < beta := lt_of_le_of_lt (le_max_right alpha0 best) hab
    obtain ⟨ht1, ht2, ht3⟩ := hstep m (max alpha0 best) c hab
    rw [abLoopMax_cons, foldMax_cons]
    set g1 := (step m (max alpha0 best) c).score with hg1def
    have hbest'max : (if best < g1 then g1 else best) = max best g1 := by
      by_cases hlt : best < g1
      · rw [if_pos hlt, max_eq_right hlt.le]
      · rw [if_neg hlt, max_eq_left (not_lt.mp hlt)]
    rw [hbest'max]
    have halpha' : max (max alpha0 best) (max best g1) = max alpha0 (max best g1) := by
      rw [max_assoc, ← max_assoc best best, max_self]
    rw [halpha']
    by_cases hcut : beta ≤ max alpha0 (max best g1)
    · rw [if_pos hcut]
      have hbg1 : beta ≤ g1 := by
        rcases le_max_iff.mp hcut with h | h
        · exact absurd h (not_le.mpr halpha0beta)
        · rcases le_max_iff.mp h with h' | h'
          · exact absurd h' (not_le.mpr hbestbeta)
          · exact h'
      have hscore : max best g1 = g1 :=
        max_eq_right (le_of_lt (lt_of_lt_of_le hbestbeta hbg1))
      dsimp only
      rw [hscore]
      refine ⟨?_, ?_, ?_⟩
      · intro hga
        exact absurd (lt_of_lt_of_le halpha0beta hbg1) (not_lt.mpr hga)
      · intro _
        exact le_trans (ht2 hbg1)
          (le_trans (le_max_right best (v m)) (le_foldMax v rest _))
      · intro _ hgb
        exact absurd hbg1 (not_le.mpr hgb)
    · rw [if_neg hcut]
      have hcut' : max alpha0 (max best g1) < beta := not_le.mp hcut
      have ihh := ih (max best g1) (if best < g1 then some m else bm)
        ((step m (max alpha0 best) c).count) hcut'
      by_cases hc1 : beta ≤ g1
      · exact absurd
          (le_trans hc1 (le_trans (le_max_right best g1)
            (le_max_right alpha0 (max best g1)))) hcut
      by_cases hc2 : g1 ≤ max alpha0 best
      swap
      · -- the child score lies strictly inside its window, so it is exact
        have hg1eq : g1 = v m := ht3 (not_le.mp hc2) (not_le.mp hc1)
        rw [← hg1eq]
        exact ihh
      -- the child failed low: its score bounds its true value from above
      have humem : v m ≤ g1 := ht1 hc2
      rw [foldMax_init v rest (max best g1)] at ihh
      rw [foldMax_init v rest (max best (v m))]
      generalize hgg : (abLoopMax step beta rest (max best g1)
          (if best < g1 then some m else bm) (max alpha0 (max best g1))
          ((step m (max alpha0 best) c).count)).score = g at ihh
      refine ⟨?_, ?_, ?_⟩
      · intro hga
        exact le_trans
          (max_le_max (max_le_max (le_refl best) humem) (le_refl (foldMax v rest ⊥)))
          (ihh.1 hga)
      · intro hbg
        have hgV' := ihh.2.1 hbg
        have hxb : max best g1 < beta :=
          max_lt hbestbeta (lt_of_le_of_lt hc2 hab)
        have hgs : g ≤ foldMax v rest ⊥ := by
          rcases le_max_iff.mp hgV' with h | h
          · exact absurd (le_trans hbg h) (not_le.mpr hxb)
          · exact h
        exact le_trans hgs (le_max_right _ _)
      · intro hag hgb
        have hgV' := ihh.2.2 hag hgb
        by_cases hbg1 : g1 ≤ best
        · rw [max_eq_left (le_trans humem hbg1)]
          rw [max_eq_left hbg1] at hgV'
          exact hgV'
        · have hg1a : g1 ≤ alpha0 := by
            rcases max_choice alpha0 best with hy | hy
            · rw [hy] at hc2; exact hc2
            · rw [hy] at hc2; exact absurd (not_le.mp hbg1) (not_lt.mpr hc2)
          rw [max_eq_right (not_le.mp hbg1).le] at hgV'
          have hgs : g = foldMax v rest ⊥ := by
            rcases max_choice g1 (foldMax v rest ⊥) with hz | hz
            · rw [hz] at hgV'
              exact absurd (hgV' ▸ hag) (not_lt.mpr hg1a)
            · rw [hz] at hgV'
              exact hgV'
          have hbu : max best (v m) ≤ alpha0 :=
            max_le (le_of_lt (lt_of_lt_of_le (not_le.mp hbg1) hg1a))
              (le_trans humem hg1a)
          rw [max_eq_right (le_trans hbu (le_of_lt (hgs ▸ hag)))]
          exact hgs

theorem abLoopMin_failsoft {step : Board → Score → ℕ → SR} {v : Board → Score}
    {alpha beta0 : Score}
    (hstep : ∀ m bb c, alpha < bb →
      (((step m bb c).score ≤ alpha → v m ≤ (step m bb c).score) ∧
       (bb ≤ (step m bb c).score → (step m bb c).score ≤ v m) ∧
       (alpha < (step m bb c).score → (step m bb c).score < bb →
         (step m bb c).score = v m))) :
    ∀ (l : List Board) (best : Score) (bm : Option Board) (c : ℕ),
      alpha < min beta0 best →
      (((abLoopMin step alpha l best bm (min beta0 best) c).score ≤ alpha →
          foldMin v l best ≤ (abLoopMin step alpha l best bm (min beta0 best) c).score) ∧
       (beta0 ≤ (abLoopMin step alpha l best bm (min beta0 best) c).score →
          (abLoopMin step alpha l best bm (min beta0 best) c).score ≤ foldMin v l best) ∧
       (alpha < (abLoopMin step alpha l best bm (min beta0 best) c).score →
          (abLoopMin step alpha l best bm (min beta0 best) c).score < beta0 →
          (abLoopMin step alpha l best bm (min beta0 best) c).score = foldMin v l best)) := by
  intro l
  induction l with
  | nil =>
    intro best bm c hab
    rw [abLoopMin_nil, foldMin_nil]
    exact ⟨fun _ => le_refl best, fun _ => le_refl best, fun _ _ => rfl⟩
  | cons m rest ih =>
    intro best bm c hab
    have halphabeta0 : alpha < beta0 := lt_of_lt_of_le hab (min_le_left beta0 best)
    have halphabest : alpha < best := lt_of_lt_of_le hab (min_le_right beta0 best)
    obtain ⟨ht1, ht2, ht3⟩ := hstep m (min beta0 best) c hab
    rw [abLoopMin_cons, foldMin_cons]
    set g1 := (step m (min beta0 best) c).score with hg1def
    have hbest'min : (if g1 < best then g1 else best) = min best g1 := by
      by_cases hlt : g1 < best
      · rw [if_pos hlt, min_eq_right hlt.le]
      · rw [if_neg hlt, min_eq_left (not_lt.mp hlt)]
    rw [hbest'min]
    have hbeta' : min (min beta0 best) (min best g1) = min beta0 (min best g1) := by
      rw [min_assoc, ← min_assoc best best, min_self]
    rw [hbeta']
    by_cases hcut : min beta0 (min best g1) ≤ alpha
    · rw [if_pos hcut]
      have hga1 : g1 ≤ alpha := by
        rcases min_le_iff.mp hcut with h | h
        · exact absurd h (not_le.mpr halphabeta0)
        · rcases min_le_iff.mp h with h' | h'
          · exact absurd h' (not_le.mpr halphabest)
          · exact h'
      have hscore : min best g1 = g1 :=
        min_eq_right (le_of_lt (lt_of_le_of_lt hga1 halphabest))
      dsimp only
      rw [hscore]
      refine ⟨?_, ?_, ?_⟩
      · intro _
        exact le_trans
          (le_trans (foldMin_le v rest _) (min_le_right best (v m))) (ht1 hga1)
      · intro hbg
        exact absurd (le_trans hbg hga1) (not_le.mpr halphabeta0)
      · intro hag _
        exact absurd hag (not_lt.mpr hga1)
    · rw [if_neg hcut]
      have hcut' : alpha < min beta0 (min best g1) := not_le.mp hcut
      have ihh := ih (min best g1) (if g1 < best then some m else bm)
        ((step m (min beta0 best) c).count) hcut'
      by_cases hc1 : g1 ≤ alpha
      · exact absurd
          (le_trans (le_trans (min_le_right beta0 (min best g1))
            (min_le_right best g1)) hc1) hcut
      by_cases hc2 : min beta0 best ≤ g1
      swap
      · -- the child score lies strictly inside its window, so it is exact
        have hg1eq : g1 = v m := ht3 (not_le.mp hc1) (not_le.mp hc2)
        rw [← hg1eq]
        exact ihh
      -- the child failed high: its score bounds its true value from below
      have humem : g1 ≤ v m := ht2 hc2
      rw [foldMin_init v rest (min best g1)] at ihh
      rw [foldMin_init v rest (min best (v m))]
      generalize hgg : (abLoopMin step alpha rest (min best g1)
          (if g1 < best then some m else bm) (min beta0 (min best g1))
          ((step m (min beta0 best) c).count)).score = g at ihh
      refine ⟨?_, ?_, ?_⟩
      · intro hga
        have hgV' := ihh.1 hga
        have hX : alpha < min best g1 := lt_min halphabest (not_le.mp hc1)
        have hgs : foldMin v rest ⊤ ≤ g := by
          rcases min_le_iff.mp hgV' with h | h
          · exact absurd (le_trans h hga) (not_le.mpr hX)
          · exact h
        exact le_trans (min_le_right _ _) hgs
      · intro hbg
        exact le_trans (ihh.2.1 hbg)
          (min_le_min (min_le_min (le_refl best) humem) (le_refl (foldMin v rest ⊤)))
      · intro hag hgb
        have hgV' := ihh.2.2 hag hgb
        by_cases hbg1 : best ≤ g1
        · rw [min_eq_left (le_trans hbg1 humem)]
          rw [min_eq_left hbg1] at hgV'
          exact hgV'
        · have hg1b : beta0 ≤ g1 := by
            rcases min_choice beta0 best with hy | hy
            · rw [hy] at hc2; exact hc2
            · rw [hy] at hc2; exact absurd (not_le.mp hbg1) (not_lt.mpr hc2)
          rw [min_eq_right (not_le.mp hbg1).le] at hgV'
          have hgs : g = foldMin v rest ⊤ := by
            rcases min_choice g1 (foldMin v rest ⊤) with hz | hz
            · rw [hz] at hgV'
              exact absurd (hgV' ▸ hgb) (not_lt.mpr hg1b)
            · rw [hz] at hgV'
              exact hgV'
          have hbu : beta0 ≤ min best (v m) :=
            le_min (le_of_lt (lt_of_le_of_lt hg1b (not_le.mp hbg1)))
              (le_trans hg1b humem)
          rw [min_eq_right (le_trans (le_of_lt (hgs ▸ hgb)) hbu)]
          exact hgs

/-- Fail-soft soundness of `alphabeta` relative to `minimax`: below alpha
the returned score upper-bounds the minimax value, above beta it
lower-bounds it, and strictly inside the window it is exact. -/
theorem alphabeta_failsoft (ef : Board → ℚ) :
    ∀ (d : ℕ) (b : Board) (alpha beta : Score) (w : Bool) (c : ℕ), alpha < beta →
      (((alphabeta b d alpha beta w ef c).score ≤ alpha →
          (minimax b d w ef 0).score ≤ (alphabeta b d alpha beta w ef c).score) ∧
       (beta ≤ (alphabeta b d alpha beta w ef c).score →
          (alphabeta b d alpha beta w ef c).score ≤ (minimax b d w ef 0).score) ∧
       (alpha < (alphabeta b d alpha beta w ef c).score →
          (alphabeta b d alpha beta w ef c).score < beta →
          (alphabeta b d alpha beta w ef c).score = (minimax b d w ef 0).score)) := by
  intro d
  induction d with
  | zero =>
    intro b alpha beta w c _
    rw [alphabeta_leaf (Or.inl rfl), minimax_leaf (Or.inl rfl)]
    exact ⟨fun _ => le_refl _, fun _ => le_refl _, fun _ _ => rfl⟩
  | succ n ih =>
    intro b alpha beta w c hab
    by_cases hwin : white_win b = true ∨ black_win b = true
    · rw [alphabeta_leaf (Or.inr hwin), minimax_leaf (Or.inr hwin)]
      exact ⟨fun _ => le_refl _, fun _ => le_refl _, fun _ _ => rfl⟩
    · simp only [not_or, Bool.not_eq_true] at hwin
      obtain ⟨hw, hbk⟩ := hwin
      cases w
      · rw [alphabeta_black hw hbk, minimax_black hw hbk,
          mmLoop_min_score (fun m c' => by rw [minimax_shift ef n m true c'])]
        have happ := @abLoopMin_failsoft
          (fun m bb c' => alphabeta m n alpha bb true ef c')
          (fun m => (minimax m n true ef 0).score) alpha beta
          (fun m bb c' hh => ih m alpha bb true c' hh)
          (generate_black_moves b) ⊤ none c
          (by rw [min_eq_left le_top]; exact hab)
        rw [min_eq_left le_top] at happ
        exact happ
      · rw [alphabeta_white hw hbk, minimax_white hw hbk,
          mmLoop_max_score (fun m c' => by rw [minimax_shift ef n m false c'])]
        have happ := @abLoopMax_failsoft
          (fun m a c' => alphabeta m n a beta false ef c')
          (fun m => (minimax m n false ef 0).score) alpha beta
          (fun m a c' hh => ih m a beta false c' hh)
          (generate_white_moves b) ⊥ none c
          (by rw [max_eq_left bot_le]; exact hab)
        rw [max_eq_left bot_le] at happ
        exact happ

theorem alphabeta_count_le_minimax (ef : Board → ℚ) :
    ∀ (d : ℕ) (b : Board) (alpha beta : Score) (w : Bool) (c : ℕ),
      (alphabeta b d alpha beta w ef c).count ≤ (minimax b d w ef c).count := by
  intro d
  induction d with
  | zero =>
    intro b alpha beta w c
    rw [alphabeta_leaf (Or.inl rfl), minimax_leaf (Or.inl rfl)]
  | succ n ih =>
    intro b alpha beta w c
    by_cases hwin : white_win b = true ∨ black_win b = true
    · rw [alphabeta_leaf (Or.inr hwin), minimax_leaf (Or.inr hwin)]
    · simp only [not_or, Bool.not_eq_true] at hwin
      obtain ⟨hw, hbk⟩ := hwin
      cases w
      · rw [alphabeta_black hw hbk, minimax_black hw hbk,
          mmLoop_count (fun m c' => by rw [minimax_shift ef n m true c'])]
        exact abLoopMin_count_le
          (fun m bb c' => by rw [alphabeta_shift ef n m alpha bb true c'])
          (fun m bb => ih m alpha bb true 0) (generate_black_moves b) ⊤ none beta c
      · rw [alphabeta_white hw hbk, minimax_white hw hbk,
          mmLoop_count (fun m c' => by rw [minimax_shift ef n m false c'])]
        exact abLoopMax_count_le
          (fun m a c' => by rw [alphabeta_shift ef n m a beta false c'])
          (fun m a => ih m a beta false 0) (generate_white_moves b) ⊥ none alpha c

/-- C1: with the full window (-inf, +inf), `alphabeta` returns the same
score as `minimax` and evaluates at most as many leaf positions, for
any 16-cell board, depth at most 3, side to move, and either evaluation
function. -/
theorem C1_alphabeta_equiv (b : Board) (hb : b.length = 16) (d : ℕ) (hd : d ≤ 3)
    (w : Bool) (ef : Board → ℚ)
    (hef : ef = static_evaluation ∨ ef = improved_static_evaluation) (c : ℕ) :
    (alphabeta b d ⊥ ⊤ w ef c).score = (minimax b d w ef c).score ∧
    (alphabeta b d ⊥ ⊤ w ef c).count ≤ (minimax b d w ef c).count := by
  constructor
  · have h := alphabeta_failsoft ef d b ⊥ ⊤ w c score_bot_lt_top
    have hmm0 : (minimax b d w ef c).score = (minimax b d w ef 0).score := by
      rw [minimax_shift ef d b w c]
    rw [hmm0]
    rcases le_or_lt (alphabeta b d ⊥ ⊤ w ef c).score ⊥ with hle | hlt
    · have hbot : (alphabeta b d ⊥ ⊤ w ef c).score = ⊥ := le_bot_iff.mp hle
      rw [hbot]
      have hmmbot := h.1 hle
      rw [hbot] at hmmbot
      exact (le_bot_iff.mp hmmbot).symm
    · rcases lt_or_le (alphabeta b d ⊥ ⊤ w ef c).score ⊤ with hlt2 | hge
      · exact h.2.2 hlt hlt2
      · have htop : (alphabeta b d ⊥ ⊤ w ef c).score = ⊤ := top_le_iff.mp hge
        rw [htop]
        have hmmtop := h.2.1 hge
        rw [htop] at hmmtop
        exact (top_le_iff.mp hmmtop).symm
  · exact alphabeta_count_le_minimax ef d b ⊥ ⊤ w c

theorem C1_alphabeta_equiv_witness :
    (wb0.length = 16 ∧ (2 : ℕ) ≤ 3 ∧
      (static_evaluation = static_evaluation ∨
        static_evaluation = improved_static_evaluation)) ∧
    ((alphabeta wb0 2 ⊥ ⊤ true static_evaluation 0).score =
        (minimax wb0 2 true static_evaluation 0).score ∧
      (alphabeta wb0 2 ⊥ ⊤ true static_evaluation 0).count ≤
        (minimax wb0 2 true static_evaluation 0).count) :=
  ⟨⟨by decide, by decide, Or.inl rfl⟩,
    C1_alphabeta_equiv wb0 (by decide) 2 (by decide) true static_evaluation
      (Or.inl rfl) 0⟩

/-- C6: at a non-terminal node searched to depth `n+1`, the move
returned by `minimax` is the first successor (in generation order)
whose child score equals the returned optimum: later equal-valued
successors never replace it, since only strictly better scores update
the running best. -/
theorem C6_first_best_move (b : Board) (n : ℕ) (w : Bool) (ef : Board → ℚ)
    (c : ℕ) (hw : white_win b = false) (hbk : black_win b = false) :
    (minimax b (n+1) w ef c).move =
      (if w then generate_white_moves b else generate_black_moves b).find?
        (fun m => decide ((minimax m n (!w) ef 0).score =
          (minimax b (n+1) w ef c).score)) := by
  cases w
  · rw [minimax_black hw hbk,
      mmLoop_min_move (fun m c' => by rw [minimax_shift ef n m true c']),
      mmLoop_min_score (fun m c' => by rw [minimax_shift ef n m true c'])]
    obtain ⟨m0, rest, hms⟩ :=
      List.exists_cons_of_ne_nil (generate_black_moves_ne_nil hbk)
    have hm0 : m0 ∈ generate_black_moves b := by
      rw [hms]; exact List.mem_cons_self m0 rest
    have hVlt : foldMin (fun m => (minimax m n true ef 0).score)
        (generate_black_moves b) ⊤ < ⊤ :=
      lt_of_le_of_lt
        (foldMin_le_of_mem (fun m => (minimax m n true ef 0).score) ⊤ hm0)
        (lt_top_iff_ne_top.mpr (minimax_score_finite ef n m0 true 0).2)
    rw [if_pos hVlt, if_neg (by simp : ¬(false = true))]
    rfl
  · rw [minimax_white hw hbk,
      mmLoop_max_move (fun m c' => by rw [minimax_shift ef n m false c']),
      mmLoop_max_score (fun m c' => by rw [minimax_shift ef n m false c'])]
    obtain ⟨m0, rest, hms⟩ :=
      List.exists_cons_of_ne_nil (generate_white_moves_ne_nil hw)
    have hm0 : m0 ∈ generate_white_moves b := by
      rw [hms]; exact List.mem_cons_self m0 rest
    have hVlt : (⊥ : Score) < foldMax (fun m => (minimax m n false ef 0).score)
        (generate_white_moves b) ⊥ :=
      lt_of_lt_of_le
        (bot_lt_iff_ne_bot.mpr (minimax_score_finite ef n m0 false 0).1)
        (foldMax_le_of_mem (fun m => (minimax m n false ef 0).score) ⊥ hm0)
    rw [if_pos hVlt, if_pos (rfl : true = true)]
    rfl

theorem C6_first_best_move_witness :
    (white_win wb0 = false ∧ black_win wb0 = false) ∧
    (minimax wb0 (0+1) true static_evaluation 0).move =
      (if true then generate_white_moves wb0 else generate_black_moves wb0).find?
        (fun m => decide ((minimax m 0 (!true) static_evaluation 0).score =
          (minimax wb0 (0+1) true static_evaluation 0).score)) :=
  ⟨⟨by decide, by decide⟩,
    C6_first_best_move wb0 0 true static_evaluation 0 (by decide) (by decide)⟩

end Jumpy3
